import Mathlib

/-!
# Provider capability and documentation registry

A shallow embedding of `providers/capabilities.go`.

* A Go `map[K]V` object is a key-unique list of entries (`GoMap`); a value of
  map type is `Option (GoMap K V)`, `none` being the nil map.
* A `*DocumentationNote` is `Option Addr`: nil, or the address of a note in an
  explicit heap (`Heap`).  The registry stores the pointers, never the notes.
* The two package-level variables `providerCapabilities` and `Notes` are the
  two fields of `Registry`; every function that touches them passes the
  registry explicitly.
* `log.Fatalf` and run-time panics are explicit outcomes (`Outcome`).
* Each provider's map is nested in the registry.  Where it matters who else
  holds a reference to a map (the value read from `Notes[pName]`, a map passed
  to a call), the section on map references keeps the DocumentationNotes
  objects in a heap of their own (`MapHeap`).
-/

namespace Providers

/-! ## Go maps -/

/-- Entries after the Go assignment `m[k] = v`: the entry of `k` is replaced
where it stands, or added when `k` has none. -/
def setEntries {K V : Type} [DecidableEq K] (k : K) (v : V) : List (K × V) → List (K × V)
  | [] => [(k, v)]
  | (a, b) :: t => if a = k then (k, v) :: t else (a, b) :: setEntries k v t

/-- Entry lookup: the value stored under `k`, if there is one. -/
def getEntries {K V : Type} [DecidableEq K] (k : K) : List (K × V) → Option V
  | [] => none
  | (a, b) :: t => if a = k then some b else getEntries k t

/-- Keys after an assignment: unchanged when the key was present, else one more. -/
theorem keys_setEntries {K V : Type} [DecidableEq K] (k : K) (v : V) (l : List (K × V)) :
    (setEntries k v l).map Prod.fst
      = if k ∈ l.map Prod.fst then l.map Prod.fst else l.map Prod.fst ++ [k] := by
  induction l with
  | nil => simp [setEntries]
  | cons hd t ih =>
    obtain ⟨a, b⟩ := hd
    by_cases h : a = k
    · simp [setEntries, h]
    · have h2 : ¬ k = a := fun e => h e.symm
      by_cases hm : k ∈ t.map Prod.fst
      · simp only [setEntries, h, if_false, List.map_cons, ih, hm, if_true, List.mem_cons,
          or_true]
      · simp only [setEntries, h, if_false, List.map_cons, ih, hm, List.mem_cons, h2,
          or_self, List.cons_append]

/-- Assignment keeps the keys of a map pairwise distinct. -/
theorem nodup_setEntries {K V : Type} [DecidableEq K] (k : K) (v : V) (l : List (K × V))
    (h : (l.map Prod.fst).Nodup) : ((setEntries k v l).map Prod.fst).Nodup := by
  rw [keys_setEntries]
  split
  · exact h
  · rename_i hk
    exact List.nodup_append.mpr ⟨h, List.nodup_singleton k, by
      intro a ha hb
      rw [List.mem_singleton] at hb
      exact hk (hb ▸ ha)⟩

/-- A (non-nil) Go map object: its entries, with pairwise distinct keys.  The
order of `entries` is the order in which a `range` loop visits them. -/
structure GoMap (K V : Type) where
  entries : List (K × V)
  nodup : (entries.map Prod.fst).Nodup

namespace GoMap

variable {K V : Type} [DecidableEq K]

/-- The map literal `map[K]V{}`. -/
def empty : GoMap K V := ⟨[], List.nodup_nil⟩

/-- Comma-ok lookup `v, ok := m[k]` on a map object. -/
def get? (m : GoMap K V) (k : K) : Option V := getEntries k m.entries

/-- Go index expression `m[k]`: the zero value of `V` when `k` has no entry. -/
def index [Inhabited V] (m : GoMap K V) (k : K) : V := (m.get? k).getD default

/-- Go assignment `m[k] = v` on a map object. -/
def set (m : GoMap K V) (k : K) (v : V) : GoMap K V :=
  ⟨setEntries k v m.entries, nodup_setEntries k v m.entries m.nodup⟩

/-- A map literal `map[K]V{k1: v1, ...}` built by successive assignments. -/
def lit (l : List (K × V)) : GoMap K V := l.foldl (fun m kv => m.set kv.1 kv.2) empty

end GoMap

/-- Comma-ok lookup on a value of map type; reading a nil map finds nothing. -/
def lookup? {K V : Type} [DecidableEq K] (m : Option (GoMap K V)) (k : K) : Option V :=
  match m with
  | none => none
  | some o => o.get? k

/-- Index expression `m[k]` on a value of map type; a nil map yields the zero value. -/
def goIndex {K V : Type} [DecidableEq K] [Inhabited V] (m : Option (GoMap K V)) (k : K) : V :=
  (lookup? m k).getD default

/-! ## Data model -/

/-- Capability is a `uint32` in the source; no arithmetic is done on it. -/
abbrev Capability := Nat

def CanUseAlias : Capability := 0
def CanUsePTR : Capability := 1
def CanUseSRV : Capability := 2
def CanUseCAA : Capability := 3
def CantUseNOPURGE : Capability := 4
def DocOfficiallySupported : Capability := 5
def DocDualHost : Capability := 6
def DocCreateDomains : Capability := 7

/-- DocumentationNote is a way for providers to give more detail about what
features they support. -/
structure DocumentationNote where
  HasFeature : Bool
  Comment : String
  Link : String
deriving DecidableEq, Repr

/-- Heap addresses of allocated notes. -/
abbrev Addr := Nat

/-- A `*DocumentationNote`: `none` is nil. -/
abbrev NotePtr := Option Addr

/-- DocumentationNotes is `map[Capability]*DocumentationNote`; `none` is the nil map. -/
abbrev DocumentationNotes := Option (GoMap Capability NotePtr)

/-- The allocated `DocumentationNote` objects, by address. -/
structure Heap where
  cells : List DocumentationNote
deriving DecidableEq, Repr

namespace Heap

/-- Allocation `&DocumentationNote{...}`: a fresh address holding `n`. -/
def alloc (h : Heap) (n : DocumentationNote) : Heap × NotePtr :=
  (⟨h.cells ++ [n]⟩, some h.cells.length)

/-- Read through a pointer; `none` is the nil-dereference panic. -/
def deref (h : Heap) (p : NotePtr) : Option DocumentationNote :=
  match p with
  | none => none
  | some a => h.cells[a]?

/-- Field write through a pointer; `none` is the nil-dereference panic. -/
def modify (h : Heap) (p : NotePtr) (f : DocumentationNote → DocumentationNote) : Option Heap :=
  match p with
  | none => none
  | some a =>
    match h.cells[a]? with
    | none => none
    | some n => some ⟨h.cells.set a (f n)⟩

end Heap

/-- ProviderMetadata is `interface{}`: a value whose dynamic type is
Capability, DocumentationNotes, or anything else (`dynType` is how `%T`
prints that type; the nil interface prints as `<nil>`). -/
inductive ProviderMetadata where
  | capability (x : Capability)
  | notes (x : DocumentationNotes)
  | other (dynType : String)

/-- Whether the type switch falls to its `default` case on this item. -/
def ProviderMetadata.isOther : ProviderMetadata → Bool
  | .other _ => true
  | _ => false

/-- The two package-level registries. -/
structure Registry where
  providerCapabilities : GoMap String (Option (GoMap Capability Bool))
  Notes : GoMap String DocumentationNotes

/-- The registries as initialised at package load: two empty, non-nil maps. -/
def Registry.init : Registry := ⟨GoMap.empty, GoMap.empty⟩

/-- How a call ends: normally, in `log.Fatalf` (message printed, process
exits), or in a run-time panic.  Each carries the registries at that point. -/
inductive Outcome where
  | done (s : Registry)
  | fatal (msg : String) (s : Registry)
  | panic (msg : String) (s : Registry)

/-! ## Operations -/

/-- ProviderHasCabability, lines 36-41. -/
def ProviderHasCabability (s : Registry) (pType : String) (cap : Capability) : Bool :=
  match s.providerCapabilities.index pType with
  | none => false
  | some m => m.index cap

/-- The `case Capability` arm, lines 63-66. -/
def caseCapability (s : Registry) (pName : String) (x : Capability) : Outcome :=
  let pc :=
    match s.providerCapabilities.index pName with
    | none => s.providerCapabilities.set pName (some GoMap.empty)
    | some _ => s.providerCapabilities
  match pc.index pName with
  | none => .panic "assignment to entry in nil map" { s with providerCapabilities := pc }
  | some m => .done { s with providerCapabilities := pc.set pName (some (m.set x true)) }

/-- The loop `for k, v := range x { Notes[pName][k] = v }`, lines 71-73,
over the entries of `x` in visiting order. -/
def rangeAssign (pName : String) : List (Capability × NotePtr) → Registry → Outcome
  | [], s => .done s
  | (k, v) :: rest, s =>
    match s.Notes.index pName with
    | none => .panic "assignment to entry in nil map" s
    | some m => rangeAssign pName rest { s with Notes := s.Notes.set pName (some (m.set k v)) }

/-- The `case DocumentationNotes` arm, lines 68-73.  Ranging over a nil map
runs the body zero times. -/
def caseDocumentationNotes (s : Registry) (pName : String) (x : DocumentationNotes) : Outcome :=
  let s1 : Registry :=
    match s.Notes.index pName with
    | none => { s with Notes := s.Notes.set pName (some GoMap.empty) }
    | some _ => s
  match x with
  | none => .done s1
  | some m => rangeAssign pName m.entries s1

/-- One iteration of the loop of unwrapProviderCapabilities: the type switch. -/
def switchItem (s : Registry) (pName : String) (pm : ProviderMetadata) : Outcome :=
  match pm with
  | .capability x => caseCapability s pName x
  | .notes x => caseDocumentationNotes s pName x
  | .other dynType => .fatal ("Unrecognized ProviderMetadata type: " ++ dynType) s

/-- Function unwrapProviderCapabilities, lines 59-79. -/
def unwrapProviderCapabilities (s : Registry) (pName : String) :
    List ProviderMetadata → Outcome
  | [] => .done s
  | pm :: rest =>
    match switchItem s pName pm with
    | .done s1 => unwrapProviderCapabilities s1 pName rest
    | out => out

/-- A sequence of registration calls, each `(pName, meta)`, run in order; the
first call that does not end normally ends the run. -/
def runCalls : List (String × List ProviderMetadata) → Registry → Outcome
  | [], s => .done s
  | (pName, items) :: rest, s =>
    match unwrapProviderCapabilities s pName items with
    | .done s1 => runCalls rest s1
    | out => out

/-- Method addStrings, lines 101-108, on the note `n` points to.  `none` is a
run-time panic (index out of range, nil dereference). -/
def addStrings (h : Heap) (n : NotePtr) (comments : List String) : Option Heap :=
  let r1 : Option Heap :=
    if comments.length > 0 then
      match comments[0]? with
      | none => none
      | some c => h.modify n (fun d => { d with Comment := c })
    else some h
  match r1 with
  | none => none
  | some h1 =>
    if comments.length > 1 then
      match comments[1]? with
      | none => none
      | some c => h1.modify n (fun d => { d with Link := c })
    else some h1

/-- Can is a small helper for concisely creating Documentation Notes,
lines 83-89.  Returns the heap after the call and the pointer returned. -/
def Can (h : Heap) (comments : List String) : Option (Heap × NotePtr) :=
  let (h1, n) := h.alloc { HasFeature := true, Comment := "", Link := "" }
  match addStrings h1 n comments with
  | none => none
  | some h2 => some (h2, n)

/-- Cannot is a small helper for concisely creating Documentation Notes,
lines 93-99. -/
def Cannot (h : Heap) (comments : List String) : Option (Heap × NotePtr) :=
  let (h1, n) := h.alloc { HasFeature := false, Comment := "", Link := "" }
  match addStrings h1 n comments with
  | none => none
  | some h2 => some (h2, n)

/-- The note a constructor call returned: the pointer it returned, read in the
heap it left.  `none` when the call panicked. -/
def returnedNote (r : Option (Heap × NotePtr)) : Option DocumentationNote :=
  match r with
  | none => none
  | some (h, p) => h.deref p

/-- Comma-ok lookup `Notes[pName][k]`: the pointer registered for `k`, if any. -/
def noteAt (s : Registry) (pName : String) (k : Capability) : Option NotePtr :=
  lookup? (s.Notes.index pName) k

/-- The entry `new` if there is one, else `old`: what a key maps to after a
map has been merged over another. -/
def overlay {V : Type} (new old : Option V) : Option V :=
  match new with
  | some v => some v
  | none => old

/-- The pointer an item gives for capability `k`: the entry of `k` when the
item is a DocumentationNotes holding one, nothing otherwise. -/
def ProviderMetadata.noteFor (pm : ProviderMetadata) (k : Capability) : Option NotePtr :=
  match pm with
  | .notes x => lookup? x k
  | _ => none

/-- The registries an outcome carries. -/
def Outcome.state : Outcome → Registry
  | .done s => s
  | .fatal _ s => s
  | .panic _ s => s

/-- A sample start-up: provider `a` declares CanUsePTR and a note for
CanUseAlias (the pointer at address 0), provider `b` declares CanUseAlias. -/
def sampleCalls : List (String × List ProviderMetadata) :=
  [("a", [.capability CanUsePTR, .notes (some (GoMap.lit [(CanUseAlias, some 0)]))]),
   ("b", [.capability CanUseAlias])]

/-- A registry in which provider `a` already has CanUseCAA. -/
def sampleRegistry : Registry :=
  ⟨GoMap.lit [("a", some (GoMap.lit [(CanUseCAA, true)]))], GoMap.empty⟩

/-- The keys of a map object, in entry order. -/
def GoMap.keys {K V : Type} (m : GoMap K V) : List K := m.entries.map Prod.fst

/-- The assignments `m[k] = v` for the pairs of `l`, one after the other. -/
def GoMap.setAll {K V : Type} [DecidableEq K] (m : GoMap K V) (l : List (K × V)) : GoMap K V :=
  l.foldl (fun acc kv => acc.set kv.1 kv.2) m

/-- The value the last assignment to `k` in `l` wrote, if `l` assigns to `k`. -/
def lastWrite {K V : Type} [DecidableEq K] (k : K) : List (K × V) → Option V
  | [] => none
  | (a, b) :: t => overlay (lastWrite k t) (if a = k then some b else none)

/-- The map object a value of map type stands for once the guard
`if m == nil { m = map[K]V{} }` has run: itself, or a new empty map. -/
def orEmpty {K V : Type} (m : Option (GoMap K V)) : GoMap K V :=
  match m with
  | none => GoMap.empty
  | some o => o

/-- The capability entries a list of items writes, in order. -/
def capWrites : List ProviderMetadata → List (Capability × Bool)
  | [] => []
  | .capability x :: t => (x, true) :: capWrites t
  | _ :: t => capWrites t

/-- The note entries a list of items writes, in order. -/
def noteWrites : List ProviderMetadata → List (Capability × NotePtr)
  | [] => []
  | .notes (some m) :: t => m.entries ++ noteWrites t
  | _ :: t => noteWrites t

/-- Whether a list of items holds a Capability. -/
def hasCapItem : List ProviderMetadata → Bool
  | [] => false
  | .capability _ :: _ => true
  | _ :: t => hasCapItem t

/-- Whether a list of items holds a DocumentationNotes (a nil or empty one counts). -/
def hasNotesItem : List ProviderMetadata → Bool
  | [] => false
  | .notes _ :: _ => true
  | _ :: t => hasNotesItem t

/-- A registry map after a call for `pName` that wrote the entries `l` into the
provider's map: untouched when the call held no item for this registry. -/
def mergeInto {K V : Type} [DecidableEq K] (m : GoMap String (Option (GoMap K V)))
    (pName : String) (touched : Bool) (l : List (K × V)) : GoMap String (Option (GoMap K V)) :=
  if touched then m.set pName (some ((orEmpty (m.index pName)).setAll l)) else m

/-- A sample call: two overlapping note sets around a capability. -/
def sampleItems : List ProviderMetadata :=
  [.notes (some (GoMap.lit [(CanUseAlias, some 0)])), .capability CanUsePTR,
   .notes (some (GoMap.lit [(CanUseAlias, some 1), (CanUseSRV, some 2)]))]

/-! ## Map references

Go maps are reference values: `Notes[pName]` yields the map object the registry
holds, not a copy of it.  The definitions above nest each provider's map in the
registry, which is enough as long as nobody else holds a reference to it.  To
follow what a caller can do with the value read from `Notes[pName]`, or with a
map it passed to a call, this section keeps the DocumentationNotes objects in a
heap of their own and lets `Notes` hold references. -/

/-- Go `delete(m, k)` on a map object. -/
def GoMap.erase {K V : Type} [DecidableEq K] (m : GoMap K V) (k : K) : GoMap K V :=
  ⟨m.entries.filter (fun e => decide (e.1 ≠ k)),
    m.nodup.sublist ((List.filter_sublist m.entries).map Prod.fst)⟩

/-- A value of type DocumentationNotes as Go holds it: nil, or the address of
a map object. -/
abbrev NotesRef := Option Addr

/-- The allocated DocumentationNotes map objects, by address. -/
structure MapHeap where
  objs : List (GoMap Capability NotePtr)

namespace MapHeap

/-- The literal `DocumentationNotes{}`: a new, empty map object. -/
def alloc (mh : MapHeap) : MapHeap × NotesRef :=
  (⟨mh.objs ++ [GoMap.empty]⟩, some mh.objs.length)

/-- The map object a reference stands for; nothing for nil. -/
def read (mh : MapHeap) (r : NotesRef) : Option (GoMap Capability NotePtr) :=
  match r with
  | none => none
  | some a => mh.objs[a]?

/-- Go `m[k] = v` through a reference; `none` is the panic on a nil map. -/
def assign (mh : MapHeap) (r : NotesRef) (k : Capability) (v : NotePtr) : Option MapHeap :=
  match r with
  | none => none
  | some a =>
    match mh.objs[a]? with
    | none => none
    | some m => some ⟨mh.objs.set a (m.set k v)⟩

/-- Go `delete(m, k)` through a reference; a no-op on a nil map. -/
def delete (mh : MapHeap) (r : NotesRef) (k : Capability) : MapHeap :=
  match r with
  | none => mh
  | some a =>
    match mh.objs[a]? with
    | none => mh
    | some m => ⟨mh.objs.set a (m.erase k)⟩

end MapHeap

/-- The loop of lines 71-73 on references: each `Notes[pName][k] = v` writes
into the map object `Notes[pName]` refers to. -/
def rangeAssignRef (N : GoMap String NotesRef) (pName : String) :
    List (Capability × NotePtr) → MapHeap → Option MapHeap
  | [], mh => some mh
  | (k, v) :: rest, mh =>
    match mh.assign (N.index pName) k v with
    | none => none
    | some mh1 => rangeAssignRef N pName rest mh1

/-- The `case DocumentationNotes` arm, lines 68-73, on references: `N` is the
variable `Notes`, `x` the map the caller passed.  The loop visits the entries
`x` holds when it starts.  `none` is a run-time panic, or an `x` that refers
to no allocated object, which no program holds. -/
def caseDocumentationNotesRef (mh : MapHeap) (N : GoMap String NotesRef) (pName : String)
    (x : NotesRef) : Option (MapHeap × GoMap String NotesRef) :=
  let st : MapHeap × GoMap String NotesRef :=
    match N.index pName with
    | none => ((mh.alloc).1, N.set pName (mh.alloc).2)
    | some _ => (mh, N)
  match x with
  | none => some st
  | some a =>
    match st.1.objs[a]? with
    | none => none
    | some m =>
      match rangeAssignRef st.2 pName m.entries st.1 with
      | none => none
      | some mh2 => some (mh2, st.2)

/-- Comma-ok lookup `Notes[pName][k]` through the reference `Notes` holds. -/
def notePtrAtRef (mh : MapHeap) (N : GoMap String NotesRef) (pName : String)
    (k : Capability) : Option NotePtr :=
  lookup? (mh.read (N.index pName)) k

/-- What the registry reports for `pName` at `k`: the note that the pointer
`Notes[pName][k]` points to, if there is an entry and it is not nil. -/
def reportedNote (h : Heap) (mh : MapHeap) (N : GoMap String NotesRef) (pName : String)
    (k : Capability) : Option DocumentationNote :=
  match notePtrAtRef mh N pName k with
  | none => none
  | some p => h.deref p

/-- The field write `n.Comment = c` through a pointer. -/
def setComment (c : String) (d : DocumentationNote) : DocumentationNote :=
  { d with Comment := c }

/-- The heap after `Can("ok")` on the empty heap: one note, at address 0. -/
def okHeap : Heap := ⟨[⟨true, "ok", ""⟩]⟩

/-- The caller's map `DocumentationNotes{CanUseAlias: Can("ok")}`, at address 0. -/
def callerMaps : MapHeap := ⟨[GoMap.lit [(CanUseAlias, some 0)]]⟩

/-- The map objects after that map was registered for provider `P` on the empty
registry: the caller's map at address 0, the registry's own at address 1. -/
def registeredMaps : MapHeap :=
  ⟨[GoMap.lit [(CanUseAlias, some 0)], GoMap.lit [(CanUseAlias, some 0)]]⟩

/-- The variable `Notes` after that call: `P` refers to the map at address 1. -/
def registeredNotes : GoMap String NotesRef := GoMap.lit [("P", some 1)]

/-! ## Map lemmas -/

section MapLemmas

variable {K V : Type} [DecidableEq K]

theorem getEntries_setEntries_self (k : K) (v : V) (l : List (K × V)) :
    getEntries k (setEntries k v l) = some v := by
  induction l with
  | nil => simp [setEntries, getEntries]
  | cons hd t ih =>
    obtain ⟨a, b⟩ := hd
    by_cases h : a = k
    · simp [setEntries, getEntries, h]
    · simp [setEntries, getEntries, h, ih]

theorem getEntries_setEntries_ne (k j : K) (v : V) (l : List (K × V)) (hne : j ≠ k) :
    getEntries j (setEntries k v l) = getEntries j l := by
  induction l with
  | nil =>
    have h2 : ¬ k = j := fun e => hne e.symm
    simp [setEntries, getEntries, h2]
  | cons hd t ih =>
    obtain ⟨a, b⟩ := hd
    by_cases h : a = k
    · have h2 : ¬ k = j := fun e => hne e.symm
      have h3 : ¬ a = j := fun e => h2 (h ▸ e)
      simp [setEntries, getEntries, h, h2]
    · by_cases h3 : a = j
      · subst h3
        simp only [setEntries, h, if_false, getEntries, if_true]
      · simp only [setEntries, h, if_false, getEntries, h3, ih]

theorem getEntries_eq_none_of_not_mem (k : K) (l : List (K × V))
    (h : k ∉ l.map Prod.fst) : getEntries k l = none := by
  induction l with
  | nil => rfl
  | cons hd t ih =>
    obtain ⟨a, b⟩ := hd
    simp only [List.map_cons, List.mem_cons, not_or] at h
    have h2 : ¬ a = k := fun e => h.1 e.symm
    simp [getEntries, h2, ih h.2]

namespace GoMap

theorem get?_empty (k : K) : (empty : GoMap K V).get? k = none := rfl

theorem get?_set_self (m : GoMap K V) (k : K) (v : V) : (m.set k v).get? k = some v :=
  getEntries_setEntries_self k v m.entries

theorem get?_set_ne (m : GoMap K V) (k j : K) (v : V) (hne : j ≠ k) :
    (m.set k v).get? j = m.get? j :=
  getEntries_setEntries_ne k j v m.entries hne

theorem index_set_self [Inhabited V] (m : GoMap K V) (k : K) (v : V) :
    (m.set k v).index k = v := by
  simp [index, get?_set_self]

theorem index_set_ne [Inhabited V] (m : GoMap K V) (k j : K) (v : V) (hne : j ≠ k) :
    (m.set k v).index j = m.index j := by
  simp [index, get?_set_ne m k j v hne]

theorem index_empty [Inhabited V] (k : K) : (empty : GoMap K V).index k = default := rfl

end GoMap

end MapLemmas

/-! ## The two arms of the type switch -/

theorem GoMap.get?_of_index_eq_some {K V : Type} [DecidableEq K]
    (m : GoMap K (Option V)) (k : K) (v : V) (h : m.index k = some v) :
    m.get? k = some (some v) := by
  unfold GoMap.index at h
  cases hg : m.get? k with
  | none => rw [hg] at h; cases h
  | some o => rw [hg] at h; simpa using h

theorem GoMap.index_of_get? {K V : Type} [DecidableEq K] [Inhabited V]
    (m : GoMap K V) (k : K) (v : V) (h : m.get? k = some v) : m.index k = v := by
  simp [GoMap.index, h]

theorem GoMap.index_congr {K V : Type} [DecidableEq K] [Inhabited V]
    (m n : GoMap K V) (k : K) (h : m.get? k = n.get? k) : m.index k = n.index k := by
  simp [GoMap.index, h]

/-- ProviderHasCabability is the Go index `providerCapabilities[pType][cap]`;
the nil test of line 37 changes nothing. -/
theorem ProviderHasCabability_eq (s : Registry) (pType : String) (cap : Capability) :
    ProviderHasCabability s pType cap = goIndex (s.providerCapabilities.index pType) cap := by
  unfold ProviderHasCabability goIndex lookup?
  cases s.providerCapabilities.index pType <;> rfl

/-- Closed form of the `case Capability` arm: it never panics. -/
theorem caseCapability_eq (s : Registry) (pName : String) (x : Capability) :
    caseCapability s pName x = .done { s with providerCapabilities :=
      (match s.providerCapabilities.index pName with
      | none => (s.providerCapabilities.set pName (some GoMap.empty)).set pName
          (some ((GoMap.empty : GoMap Capability Bool).set x true))
      | some m => s.providerCapabilities.set pName (some (m.set x true))) } := by
  unfold caseCapability
  cases h : s.providerCapabilities.index pName with
  | none => simp [GoMap.index_set_self]
  | some m => simp [h]

/-- What the `case Capability` arm does to the registries. -/
theorem caseCapability_spec (s : Registry) (pName : String) (x : Capability) :
    ∃ s1 m1, caseCapability s pName x = .done s1 ∧ s1.Notes = s.Notes ∧
      (∀ q, q ≠ pName → s1.providerCapabilities.get? q = s.providerCapabilities.get? q) ∧
      s1.providerCapabilities.get? pName = some (some m1) ∧
      m1.get? x = some true ∧
      (∀ c, c ≠ x → m1.get? c = lookup? (s.providerCapabilities.index pName) c) := by
  rw [caseCapability_eq]
  cases h : s.providerCapabilities.index pName with
  | none =>
    refine ⟨_, (GoMap.empty : GoMap Capability Bool).set x true, rfl, rfl, ?_, ?_, ?_, ?_⟩
    · intro q hq
      simp only [GoMap.get?_set_ne _ _ _ _ hq]
    · simp only [GoMap.get?_set_self]
    · exact GoMap.get?_set_self _ _ _
    · intro c hc
      rw [GoMap.get?_set_ne _ _ _ _ hc]
      rfl
  | some m =>
    refine ⟨_, m.set x true, rfl, rfl, ?_, ?_, ?_, ?_⟩
    · intro q hq
      simp only [GoMap.get?_set_ne _ _ _ _ hq]
    · simp only [GoMap.get?_set_self]
    · exact GoMap.get?_set_self _ _ _
    · intro c hc
      rw [GoMap.get?_set_ne _ _ _ _ hc]
      rfl

/-- The `range` loop of lines 71-73 never panics once `Notes[pName]` is a map
object, and merges the visited entries over it. -/
theorem rangeAssign_spec (pName : String) (l : List (Capability × NotePtr)) :
    ∀ (s : Registry) (m0 : GoMap Capability NotePtr),
      s.Notes.get? pName = some (some m0) → (l.map Prod.fst).Nodup →
      ∃ s1 m1, rangeAssign pName l s = .done s1 ∧
        s1.providerCapabilities = s.providerCapabilities ∧
        (∀ q, q ≠ pName → s1.Notes.get? q = s.Notes.get? q) ∧
        s1.Notes.get? pName = some (some m1) ∧
        (∀ k, m1.get? k = overlay (getEntries k l) (m0.get? k)) := by
  induction l with
  | nil =>
    intro s m0 h _
    exact ⟨s, m0, rfl, rfl, fun _ _ => rfl, h, fun _ => rfl⟩
  | cons hd t ih =>
    obtain ⟨k0, v0⟩ := hd
    intro s m0 h hnd
    rw [List.map_cons, List.nodup_cons] at hnd
    have hidx : s.Notes.index pName = some m0 := GoMap.index_of_get? _ _ _ h
    obtain ⟨s1, m1, hr, hpc, hfr, hget, hm⟩ :=
      ih { s with Notes := s.Notes.set pName (some (m0.set k0 v0)) } (m0.set k0 v0)
        (GoMap.get?_set_self _ _ _) hnd.2
    refine ⟨s1, m1, ?_, hpc, ?_, hget, ?_⟩
    · simp only [rangeAssign, hidx]
      exact hr
    · intro q hq
      rw [hfr q hq]
      exact GoMap.get?_set_ne _ _ _ _ hq
    · intro k
      rw [hm k]
      by_cases hk : k0 = k
      · subst hk
        rw [getEntries_eq_none_of_not_mem _ _ hnd.1]
        simp [overlay, getEntries, GoMap.get?_set_self]
      · have hk2 : k ≠ k0 := fun e => hk e.symm
        simp only [getEntries, hk, if_false, GoMap.get?_set_ne _ _ _ _ hk2]

/-- What the `case DocumentationNotes` arm does to the registries. -/
theorem caseDocumentationNotes_spec (s : Registry) (pName : String) (x : DocumentationNotes) :
    ∃ s1 m1, caseDocumentationNotes s pName x = .done s1 ∧
      s1.providerCapabilities = s.providerCapabilities ∧
      (∀ q, q ≠ pName → s1.Notes.get? q = s.Notes.get? q) ∧
      s1.Notes.get? pName = some (some m1) ∧
      (∀ k, m1.get? k = overlay (lookup? x k) (lookup? (s.Notes.index pName) k)) := by
  unfold caseDocumentationNotes
  cases h : s.Notes.index pName with
  | none =>
    cases x with
    | none =>
      exact ⟨_, GoMap.empty, rfl, rfl, fun q hq => GoMap.get?_set_ne _ _ _ _ hq,
        GoMap.get?_set_self _ _ _, fun _ => rfl⟩
    | some m =>
      obtain ⟨s1, m1, hr, hpc, hfr, hget, hm⟩ :=
        rangeAssign_spec pName m.entries
          { s with Notes := s.Notes.set pName (some GoMap.empty) } GoMap.empty
          (GoMap.get?_set_self _ _ _) m.nodup
      refine ⟨s1, m1, hr, hpc, ?_, hget, ?_⟩
      · intro q hq
        rw [hfr q hq]
        exact GoMap.get?_set_ne _ _ _ _ hq
      · intro k
        rw [hm k]
        rfl
  | some m0 =>
    have hg : s.Notes.get? pName = some (some m0) := GoMap.get?_of_index_eq_some _ _ _ h
    cases x with
    | none => exact ⟨s, m0, rfl, rfl, fun _ _ => rfl, hg, fun _ => rfl⟩
    | some m =>
      obtain ⟨s1, m1, hr, hpc, hfr, hget, hm⟩ := rangeAssign_spec pName m.entries s m0 hg m.nodup
      exact ⟨s1, m1, hr, hpc, hfr, hget, fun k => by rw [hm k]; rfl⟩

/-! ## One item, one call, a sequence of calls -/

theorem ProviderHasCabability_eq_getD (s : Registry) (q : String) (c : Capability) :
    ProviderHasCabability s q c = (lookup? (s.providerCapabilities.index q) c).getD false := by
  rw [ProviderHasCabability_eq]
  rfl

theorem ProviderHasCabability_congr (s t : Registry) (q : String)
    (h : s.providerCapabilities.get? q = t.providerCapabilities.get? q) (c : Capability) :
    ProviderHasCabability s q c = ProviderHasCabability t q c := by
  rw [ProviderHasCabability_eq, ProviderHasCabability_eq, GoMap.index_congr _ _ _ h]

theorem noteAt_congr (s t : Registry) (q : String)
    (h : s.Notes.get? q = t.Notes.get? q) (k : Capability) : noteAt s q k = noteAt t q k := by
  unfold noteAt
  rw [GoMap.index_congr _ _ _ h]

/-- The effect of one loop iteration on an item of a recognised type. -/
theorem switchItem_spec (s : Registry) (pName : String) (pm : ProviderMetadata)
    (hpm : pm.isOther = false) :
    ∃ s1, switchItem s pName pm = .done s1 ∧
      (∀ q c, ProviderHasCabability s1 q c = true ↔
        ProviderHasCabability s q c = true ∨ (q = pName ∧ pm = .capability c)) ∧
      (∀ q k, noteAt s1 q k
        = if q = pName then overlay (pm.noteFor k) (noteAt s q k) else noteAt s q k) ∧
      (∀ q, q ≠ pName → s1.providerCapabilities.get? q = s.providerCapabilities.get? q ∧
        s1.Notes.get? q = s.Notes.get? q) := by
  cases pm with
  | other ty => simp [ProviderMetadata.isOther] at hpm
  | capability x =>
    obtain ⟨s1, m1, hr, hN, hfr, hget, hx, hoth⟩ := caseCapability_spec s pName x
    refine ⟨s1, hr, ?_, ?_, ?_⟩
    · intro q c
      by_cases hq : q = pName
      · subst hq
        have hi : s1.providerCapabilities.index q = some m1 := GoMap.index_of_get? _ _ _ hget
        by_cases hc : c = x
        · subst hc
          simp [ProviderHasCabability_eq_getD, hi, lookup?, hx]
        · have hc2 : ¬ x = c := fun e => hc e.symm
          rw [ProviderHasCabability_eq_getD, hi]
          simp only [lookup?, hoth c hc]
          rw [ProviderHasCabability_eq_getD]
          simp [hc2, lookup?]
      · rw [ProviderHasCabability_congr s1 s q (hfr q hq)]
        simp [hq]
    · intro q k
      have : noteAt s1 q k = noteAt s q k := by unfold noteAt; rw [hN]
      rw [this]
      simp [ProviderMetadata.noteFor, overlay]
    · intro q hq
      exact ⟨hfr q hq, by rw [hN]⟩
  | notes x =>
    obtain ⟨s1, m1, hr, hpc, hfr, hget, hm⟩ := caseDocumentationNotes_spec s pName x
    refine ⟨s1, hr, ?_, ?_, ?_⟩
    · intro q c
      have : ProviderHasCabability s1 q c = ProviderHasCabability s q c :=
        ProviderHasCabability_congr s1 s q (by rw [hpc]) c
      rw [this]
      simp
    · intro q k
      by_cases hq : q = pName
      · subst hq
        have hi : s1.Notes.index q = some m1 := GoMap.index_of_get? _ _ _ hget
        simp only [if_true, ProviderMetadata.noteFor]
        unfold noteAt
        rw [hi]
        exact hm k
      · rw [noteAt_congr s1 s q (hfr q hq)]
        simp [hq]
    · intro q hq
      exact ⟨by rw [hpc], hfr q hq⟩

theorem unwrap_cons_done (s s1 : Registry) (pName : String) (pm : ProviderMetadata)
    (rest : List ProviderMetadata) (h : switchItem s pName pm = .done s1) :
    unwrapProviderCapabilities s pName (pm :: rest)
      = unwrapProviderCapabilities s1 pName rest := by
  simp only [unwrapProviderCapabilities, h]

/-- A call on a list of recognised items ends normally; its effect on the
capability query, on other providers and on untouched note keys. -/
theorem unwrap_spec (pName : String) (items : List ProviderMetadata) :
    ∀ s : Registry, (∀ pm ∈ items, pm.isOther = false) →
    ∃ s1, unwrapProviderCapabilities s pName items = .done s1 ∧
      (∀ q c, ProviderHasCabability s1 q c = true ↔
        ProviderHasCabability s q c = true ∨ (q = pName ∧ .capability c ∈ items)) ∧
      (∀ q, q ≠ pName → s1.providerCapabilities.get? q = s.providerCapabilities.get? q ∧
        s1.Notes.get? q = s.Notes.get? q) ∧
      (∀ k, (∀ pm ∈ items, pm.noteFor k = none) → noteAt s1 pName k = noteAt s pName k) := by
  induction items with
  | nil =>
    intro s _
    exact ⟨s, rfl, by simp, fun _ _ => ⟨rfl, rfl⟩, fun _ _ => rfl⟩
  | cons pm rest ih =>
    intro s hall
    obtain ⟨sa, hsa, hcap, hnote, hfr⟩ :=
      switchItem_spec s pName pm (hall pm (List.mem_cons_self _ _))
    obtain ⟨s1, hs1, hcap1, hfr1, hnote1⟩ :=
      ih sa (fun x hx => hall x (List.mem_cons_of_mem _ hx))
    refine ⟨s1, ?_, ?_, ?_, ?_⟩
    · rw [unwrap_cons_done s sa pName pm rest hsa]
      exact hs1
    · intro q c
      rw [hcap1 q c, hcap q c, List.mem_cons]
      constructor
      · rintro ((h | ⟨h1, h2⟩) | ⟨h1, h2⟩)
        · exact Or.inl h
        · exact Or.inr ⟨h1, Or.inl h2.symm⟩
        · exact Or.inr ⟨h1, Or.inr h2⟩
      · rintro (h | ⟨h1, h2 | h2⟩)
        · exact Or.inl (Or.inl h)
        · exact Or.inl (Or.inr ⟨h1, h2.symm⟩)
        · exact Or.inr ⟨h1, h2⟩
    · intro q hq
      exact ⟨(hfr1 q hq).1.trans (hfr q hq).1, (hfr1 q hq).2.trans (hfr q hq).2⟩
    · intro k hk
      rw [hnote1 k (fun x hx => hk x (List.mem_cons_of_mem _ hx)), hnote pName k,
        hk pm (List.mem_cons_self _ _)]
      simp [overlay]

/-- A call over `a ++ b` is the call over `a` followed, when that ends
normally, by the call over `b`. -/
theorem unwrap_append (pName : String) (a b : List ProviderMetadata) :
    ∀ s : Registry, unwrapProviderCapabilities s pName (a ++ b)
      = match unwrapProviderCapabilities s pName a with
        | .done s1 => unwrapProviderCapabilities s1 pName b
        | out => out := by
  induction a with
  | nil => intro s; rfl
  | cons pm rest ih =>
    intro s
    simp only [List.cons_append, unwrapProviderCapabilities]
    cases h : switchItem s pName pm with
    | done sa => exact ih sa
    | fatal msg sa => rfl
    | panic msg sa => rfl

/-- The first item of an unrecognised type ends the call in `log.Fatalf`,
with that item's type in the message. -/
theorem unwrap_first_other (pName : String) (items : List ProviderMetadata) :
    ∀ (s : Registry) (ty : String),
      items.find? ProviderMetadata.isOther = some (.other ty) →
      ∃ s1, unwrapProviderCapabilities s pName items
        = .fatal ("Unrecognized ProviderMetadata type: " ++ ty) s1 := by
  induction items with
  | nil => intro s ty h; simp at h
  | cons pm rest ih =>
    intro s ty h
    cases hpm : pm.isOther with
    | true =>
      rw [List.find?_cons_of_pos _ hpm] at h
      injection h with h
      subst h
      exact ⟨s, rfl⟩
    | false =>
      rw [List.find?_cons_of_neg _ (by simp [hpm])] at h
      obtain ⟨sa, hsa, -⟩ := switchItem_spec s pName pm hpm
      obtain ⟨s1, hs1⟩ := ih sa ty h
      exact ⟨s1, by rw [unwrap_cons_done s sa pName pm rest hsa]; exact hs1⟩

theorem isOther_eq_true (pm : ProviderMetadata) (h : pm.isOther = true) :
    ∃ ty, pm = .other ty := by
  cases pm with
  | other ty => exact ⟨ty, rfl⟩
  | capability x => simp [ProviderMetadata.isOther] at h
  | notes x => simp [ProviderMetadata.isOther] at h

/-- A call that ends normally was given recognised items only. -/
theorem unwrap_done_no_other (s s1 : Registry) (pName : String)
    (items : List ProviderMetadata)
    (h : unwrapProviderCapabilities s pName items = .done s1) :
    ∀ pm ∈ items, pm.isOther = false := by
  intro pm hpm
  cases hf : items.find? ProviderMetadata.isOther with
  | none =>
    have := List.find?_eq_none.mp hf pm hpm
    simpa using this
  | some x =>
    obtain ⟨ty, hty⟩ := isOther_eq_true x (List.find?_some hf)
    subst hty
    obtain ⟨s2, hs2⟩ := unwrap_first_other pName items s ty hf
    rw [hs2] at h
    cases h

/-- The effect of a call that ended normally. -/
theorem unwrap_done_spec (s s1 : Registry) (pName : String) (items : List ProviderMetadata)
    (h : unwrapProviderCapabilities s pName items = .done s1) :
    (∀ q c, ProviderHasCabability s1 q c = true ↔
      ProviderHasCabability s q c = true ∨ (q = pName ∧ .capability c ∈ items)) ∧
    (∀ q, q ≠ pName → s1.providerCapabilities.get? q = s.providerCapabilities.get? q ∧
      s1.Notes.get? q = s.Notes.get? q) ∧
    (∀ k, (∀ pm ∈ items, pm.noteFor k = none) → noteAt s1 pName k = noteAt s pName k) := by
  obtain ⟨s2, hs2, hrest⟩ := unwrap_spec pName items s (unwrap_done_no_other s s1 pName items h)
  rw [hs2] at h
  injection h with h
  subst h
  exact hrest

/-- The effect of a sequence of calls that all ended normally. -/
theorem runCalls_spec (calls : List (String × List ProviderMetadata)) :
    ∀ s s1 : Registry, runCalls calls s = .done s1 →
    (∀ q c, ProviderHasCabability s1 q c = true ↔
      ProviderHasCabability s q c = true ∨
        ∃ call ∈ calls, call.1 = q ∧ .capability c ∈ call.2) ∧
    (∀ q, (∀ call ∈ calls, call.1 ≠ q) →
      s1.providerCapabilities.get? q = s.providerCapabilities.get? q ∧
      s1.Notes.get? q = s.Notes.get? q) := by
  induction calls with
  | nil =>
    intro s s1 h
    simp only [runCalls] at h
    injection h with h
    subst h
    exact ⟨by simp, fun _ _ => ⟨rfl, rfl⟩⟩
  | cons call rest ih =>
    obtain ⟨pName, items⟩ := call
    intro s s1 h
    simp only [runCalls] at h
    cases hu : unwrapProviderCapabilities s pName items with
    | fatal msg sa => rw [hu] at h; cases h
    | panic msg sa => rw [hu] at h; cases h
    | done sa =>
      rw [hu] at h
      obtain ⟨hcap, hfr, -⟩ := unwrap_done_spec s sa pName items hu
      obtain ⟨hcap1, hfr1⟩ := ih sa s1 h
      refine ⟨?_, ?_⟩
      · intro q c
        rw [hcap1 q c, hcap q c]
        constructor
        · rintro ((h1 | ⟨h1, h2⟩) | ⟨cl, hcl, h1, h2⟩)
          · exact Or.inl h1
          · exact Or.inr ⟨(pName, items), List.mem_cons_self _ _, h1.symm, h2⟩
          · exact Or.inr ⟨cl, List.mem_cons_of_mem _ hcl, h1, h2⟩
        · rintro (h1 | ⟨cl, hcl, h1, h2⟩)
          · exact Or.inl (Or.inl h1)
          · rcases List.mem_cons.mp hcl with e | hmem
            · subst e
              exact Or.inl (Or.inr ⟨h1.symm, h2⟩)
            · exact Or.inr ⟨cl, hmem, h1, h2⟩
      · intro q hq
        have hq1 : q ≠ pName := fun e => hq (pName, items) (List.mem_cons_self _ _) e.symm
        have hq2 : ∀ call ∈ rest, call.1 ≠ q := fun cl hcl => hq cl (List.mem_cons_of_mem _ hcl)
        exact ⟨(hfr1 q hq2).1.trans (hfr q hq1).1, (hfr1 q hq2).2.trans (hfr q hq1).2⟩

theorem runCalls_done (calls : List (String × List ProviderMetadata)) :
    ∀ s : Registry, (∀ call ∈ calls, ∀ pm ∈ call.2, pm.isOther = false) →
    ∃ s1, runCalls calls s = .done s1 := by
  induction calls with
  | nil => intro s _; exact ⟨s, rfl⟩
  | cons call rest ih =>
    obtain ⟨pName, items⟩ := call
    intro s hall
    obtain ⟨sa, hsa, -⟩ := unwrap_spec pName items s (hall (pName, items) (List.mem_cons_self _ _))
    obtain ⟨s1, hs1⟩ := ih sa (fun cl hcl => hall cl (List.mem_cons_of_mem _ hcl))
    exact ⟨s1, by simp only [runCalls, hsa]; exact hs1⟩

theorem lookup?_lit_single (c k : Capability) (p : NotePtr) :
    lookup? (some (GoMap.lit [(c, p)])) k = if k = c then some p else none := by
  have e : (GoMap.lit [(c, p)] : GoMap Capability NotePtr) = GoMap.empty.set c p := rfl
  rw [e]
  by_cases h : k = c
  · subst h
    simp [lookup?, GoMap.get?_set_self]
  · simp [lookup?, GoMap.get?_set_ne _ _ _ _ h, h, GoMap.get?_empty]

/-! ## Note constructors -/

theorem Heap.deref_alloc (h : Heap) (n : DocumentationNote) :
    (h.alloc n).1.deref (h.alloc n).2 = some n := by
  simp [Heap.alloc, Heap.deref]

theorem Heap.modify_of_deref (h : Heap) (p : NotePtr) (n : DocumentationNote)
    (f : DocumentationNote → DocumentationNote) (hd : h.deref p = some n) :
    ∃ h2, h.modify p f = some h2 ∧ h2.deref p = some (f n) := by
  cases p with
  | none => simp [Heap.deref] at hd
  | some a =>
    simp only [Heap.deref] at hd
    refine ⟨⟨h.cells.set a (f n)⟩, by simp [Heap.modify, hd], ?_⟩
    have hlt : a < h.cells.length := by
      by_contra hge
      rw [List.getElem?_eq_none (Nat.le_of_not_lt hge)] at hd
      cases hd
    simp [Heap.deref, hlt]

/-- Method addStrings never panics on an allocated note; it sets Comment from
the first string and Link from the second, when there are such. -/
theorem addStrings_spec (h : Heap) (p : NotePtr) (n : DocumentationNote)
    (comments : List String) (hd : h.deref p = some n) :
    ∃ h2, addStrings h p comments = some h2 ∧
      h2.deref p = some { HasFeature := n.HasFeature,
                          Comment := if comments.length > 0 then comments.getD 0 "" else n.Comment,
                          Link := if comments.length > 1 then comments.getD 1 "" else n.Link } := by
  cases comments with
  | nil => exact ⟨h, rfl, by simpa using hd⟩
  | cons c t =>
    obtain ⟨h1, hm1, hd1⟩ := Heap.modify_of_deref h p n (fun d => { d with Comment := c }) hd
    cases t with
    | nil =>
      refine ⟨h1, by simp [addStrings, hm1], ?_⟩
      simpa using hd1
    | cons d u =>
      obtain ⟨h2, hm2, hd2⟩ := Heap.modify_of_deref h1 p _ (fun e => { e with Link := d }) hd1
      refine ⟨h2, by simp [addStrings, hm1, hm2], ?_⟩
      simpa using hd2

theorem returnedNote_Can (h : Heap) (cs : List String) :
    returnedNote (Can h cs)
      = some { HasFeature := true, Comment := cs.getD 0 "", Link := cs.getD 1 "" } := by
  obtain ⟨h2, ha, hd⟩ := addStrings_spec (h.alloc ⟨true, "", ""⟩).1 (h.alloc ⟨true, "", ""⟩).2
    ⟨true, "", ""⟩ cs (Heap.deref_alloc h _)
  have e : Can h cs = some (h2, (h.alloc ⟨true, "", ""⟩).2) := by
    simp only [Can, ha]
  rw [e]
  simp only [returnedNote, hd]
  cases cs with
  | nil => rfl
  | cons c t => cases t <;> simp

theorem returnedNote_Cannot (h : Heap) (cs : List String) :
    returnedNote (Cannot h cs)
      = some { HasFeature := false, Comment := cs.getD 0 "", Link := cs.getD 1 "" } := by
  obtain ⟨h2, ha, hd⟩ := addStrings_spec (h.alloc ⟨false, "", ""⟩).1 (h.alloc ⟨false, "", ""⟩).2
    ⟨false, "", ""⟩ cs (Heap.deref_alloc h _)
  have e : Cannot h cs = some (h2, (h.alloc ⟨false, "", ""⟩).2) := by
    simp only [Cannot, ha]
  rw [e]
  simp only [returnedNote, hd]
  cases cs with
  | nil => rfl
  | cons c t => cases t <;> simp

/-- Last write wins along a call: the pointer an item gives for `k` is what
`Notes[pName][k]` holds at the end when no later item gives one for `k`. -/
theorem unwrap_last_note (s s1 : Registry) (pName : String) (k : Capability) (v : NotePtr)
    (pre post : List ProviderMetadata) (pm : ProviderMetadata)
    (h : unwrapProviderCapabilities s pName (pre ++ pm :: post) = .done s1)
    (hv : pm.noteFor k = some v) (hpost : ∀ pm2 ∈ post, pm2.noteFor k = none) :
    noteAt s1 pName k = some v := by
  have hall := unwrap_done_no_other s s1 pName _ h
  obtain ⟨sa, hsa, -⟩ := unwrap_spec pName pre s
    (fun x hx => hall x (List.mem_append_left _ hx))
  obtain ⟨sb, hsb, -, hnote, -⟩ := switchItem_spec sa pName pm
    (hall pm (List.mem_append_right _ (List.mem_cons_self _ _)))
  rw [unwrap_append, hsa] at h
  simp only [unwrap_cons_done sa sb pName pm post hsb] at h
  obtain ⟨-, -, hkeep⟩ := unwrap_done_spec sb s1 pName post h
  rw [hkeep k hpost, hnote pName k, hv]
  simp [overlay]

/-! ## Claims -/

/-- C1: for every registry state, provider `P` and capability `C`, the call
`unwrapProviderCapabilities(P, [C])` ends normally and afterwards
`ProviderHasCabability(P, C)` is true; it is still true after any number `n`
of further identical calls, each of which ends normally too. -/
theorem C1_declared_capability_is_reported (s : Registry) (P : String) (C : Capability) :
    ∃ s1, unwrapProviderCapabilities s P [.capability C] = .done s1 ∧
      ProviderHasCabability s1 P C = true ∧
      ∀ n : Nat, ∃ s2, runCalls (List.replicate n (P, [.capability C])) s1 = .done s2 ∧
        ProviderHasCabability s2 P C = true := by
  obtain ⟨s1, hs1, hcap, -⟩ := unwrap_spec P [.capability C] s (by simp [ProviderMetadata.isOther])
  have h1 : ProviderHasCabability s1 P C = true := (hcap P C).mpr (Or.inr ⟨rfl, by simp⟩)
  refine ⟨s1, hs1, h1, ?_⟩
  intro n
  obtain ⟨s2, hs2⟩ := runCalls_done (List.replicate n (P, [.capability C])) s1 (by
    intro call hcall pm hpm
    rw [List.eq_of_mem_replicate hcall] at hpm
    rw [List.mem_singleton] at hpm
    subst hpm
    rfl)
  exact ⟨s2, hs2, ((runCalls_spec _ s1 s2 hs2).1 P C).mpr (Or.inl h1)⟩

/-- C2: starting from the empty registries, after any sequence of registration
calls that all ended normally and in which `C` never occurs as a Capability
item of a call for provider `P`, `ProviderHasCabability(P, C)` is false. -/
theorem C2_undeclared_capability_is_false (calls : List (String × List ProviderMetadata))
    (s : Registry) (P : String) (C : Capability)
    (hrun : runCalls calls Registry.init = .done s)
    (hnever : ∀ call ∈ calls, call.1 = P → ProviderMetadata.capability C ∉ call.2) :
    ProviderHasCabability s P C = false := by
  cases hv : ProviderHasCabability s P C with
  | false => rfl
  | true =>
    rcases ((runCalls_spec calls Registry.init s hrun).1 P C).mp hv with h0 | ⟨call, hc, hp, hm⟩
    · simp [ProviderHasCabability, Registry.init, GoMap.index, GoMap.get?, GoMap.empty,
        getEntries] at h0
    · exact absurd hm (hnever call hc hp)

/-- C2 at a concrete input: after `sampleCalls`, provider `a`, which declared
CanUsePTR and only a note for CanUseAlias, does not have CanUseAlias. -/
theorem C2_undeclared_capability_is_false_witness :
    runCalls sampleCalls Registry.init = .done (runCalls sampleCalls Registry.init).state ∧
      ProviderHasCabability (runCalls sampleCalls Registry.init).state "a" CanUseAlias = false :=
  ⟨rfl, C2_undeclared_capability_is_false sampleCalls (runCalls sampleCalls Registry.init).state
    "a" CanUseAlias rfl (by
      intro call hcall hp
      simp only [sampleCalls, List.mem_cons, List.mem_singleton, List.not_mem_nil,
        or_false] at hcall
      rcases hcall with e | e
      · subst e
        simp [CanUseAlias, CanUsePTR]
      · subst e
        simp at hp)⟩

/-- C3: starting from the empty registries, after any sequence of registration
calls that all ended normally and none of which is for provider `P`:
`ProviderHasCabability(P, c)` is false for every `c`, `Notes[P]` is the nil map
and has no entry for any capability, so that `Notes[P][k]` is the nil pointer.
Both lookups are total: reading a map never fails. -/
theorem C3_unregistered_provider (calls : List (String × List ProviderMetadata))
    (s : Registry) (P : String)
    (hrun : runCalls calls Registry.init = .done s)
    (hnone : ∀ call ∈ calls, call.1 ≠ P) :
    (∀ c, ProviderHasCabability s P c = false) ∧
      s.Notes.index P = none ∧
      (∀ k, noteAt s P k = none) ∧
      (∀ k, goIndex (s.Notes.index P) k = none) := by
  obtain ⟨-, hfr⟩ := runCalls_spec calls Registry.init s hrun
  obtain ⟨hpc, hN⟩ := hfr P hnone
  have hidx : s.Notes.index P = none := by
    rw [GoMap.index_congr _ _ _ hN]
    rfl
  refine ⟨?_, hidx, ?_, ?_⟩
  · intro c
    rw [ProviderHasCabability_congr s Registry.init P hpc c]
    rfl
  · intro k
    simp [noteAt, hidx, lookup?]
  · intro k
    simp only [goIndex, hidx, lookup?]
    rfl

/-- C3 at a concrete input: after `sampleCalls`, which names `a` and `b` only,
provider `c` has no capability and no notes. -/
theorem C3_unregistered_provider_witness :
    runCalls sampleCalls Registry.init = .done (runCalls sampleCalls Registry.init).state ∧
      (∀ c, ProviderHasCabability (runCalls sampleCalls Registry.init).state "c" c = false) ∧
      (runCalls sampleCalls Registry.init).state.Notes.index "c" = none ∧
      (∀ k, noteAt (runCalls sampleCalls Registry.init).state "c" k = none) ∧
      (∀ k, goIndex ((runCalls sampleCalls Registry.init).state.Notes.index "c") k = none) :=
  ⟨rfl, C3_unregistered_provider sampleCalls (runCalls sampleCalls Registry.init).state "c" rfl (by
    intro call hcall
    simp only [sampleCalls, List.mem_cons, List.mem_singleton, List.not_mem_nil,
      or_false] at hcall
    rcases hcall with e | e <;> subst e <;> simp)⟩

/-- C4: `unwrapProviderCapabilities(P, items)` ends in `log.Fatalf` if and only
if some item is neither a Capability nor a DocumentationNotes; on a list of those
two kinds only (the empty list included) it ends normally; and when it is fatal
the message names the dynamic type of the first such item. -/
theorem C4_fatal_iff_unrecognised_item (s : Registry) (P : String)
    (items : List ProviderMetadata) :
    ((∃ msg s1, unwrapProviderCapabilities s P items = .fatal msg s1) ↔
        ∃ pm ∈ items, pm.isOther = true) ∧
    ((∀ pm ∈ items, pm.isOther = false) →
        ∃ s1, unwrapProviderCapabilities s P items = .done s1) ∧
    (∀ pre ty post, items = pre ++ .other ty :: post → (∀ pm ∈ pre, pm.isOther = false) →
        ∃ s1, unwrapProviderCapabilities s P items
          = .fatal ("Unrecognized ProviderMetadata type: " ++ ty) s1) := by
  refine ⟨⟨?_, ?_⟩, ?_, ?_⟩
  · rintro ⟨msg, s1, hf⟩
    by_contra hno
    have hall : ∀ pm ∈ items, pm.isOther = false := by
      intro pm hpm
      cases hv : pm.isOther with
      | false => rfl
      | true => exact absurd ⟨pm, hpm, hv⟩ hno
    obtain ⟨s2, hs2, -⟩ := unwrap_spec P items s hall
    rw [hs2] at hf
    cases hf
  · rintro ⟨pm, hpm, hv⟩
    cases hf : items.find? ProviderMetadata.isOther with
    | none =>
      have := List.find?_eq_none.mp hf pm hpm
      exact absurd hv this
    | some x =>
      obtain ⟨ty, hty⟩ := isOther_eq_true x (List.find?_some hf)
      subst hty
      obtain ⟨s1, hs1⟩ := unwrap_first_other P items s ty hf
      exact ⟨_, s1, hs1⟩
  · intro hall
    obtain ⟨s1, hs1, -⟩ := unwrap_spec P items s hall
    exact ⟨s1, hs1⟩
  · intro pre ty post hitems hpre
    obtain ⟨s1, hs1, -⟩ := unwrap_spec P pre s hpre
    refine ⟨s1, ?_⟩
    rw [hitems, unwrap_append, hs1]
    rfl

/-- C4 at a concrete input: a string among the items ends the call in the
fatal error naming `string`; the capability after it is never reached. -/
theorem C4_fatal_iff_unrecognised_item_witness :
    ∃ s1, unwrapProviderCapabilities Registry.init "a"
        [.capability CanUsePTR, .other "string", .capability CanUseSRV]
      = .fatal ("Unrecognized ProviderMetadata type: " ++ "string") s1 :=
  (C4_fatal_iff_unrecognised_item Registry.init "a"
      [.capability CanUsePTR, .other "string", .capability CanUseSRV]).2.2
    [.capability CanUsePTR] "string" [.capability CanUseSRV] rfl
    (by
      intro pm hpm
      rw [List.mem_singleton] at hpm
      subst hpm
      rfl)

/-- C5: merge / overwrite law for notes.  After
`unwrapProviderCapabilities(P, [N])` the note set of `P` maps every capability
in `N` to its entry in `N`, and every other capability to what it mapped to
before (absent stays absent).  In particular declaring `C: p1` and then
`C: p2` leaves `C` mapped to `p2` and every other capability as it was. -/
theorem C5_notes_merge_last_write_wins (s : Registry) (P : String) :
    (∀ N : DocumentationNotes, ∃ s1,
      unwrapProviderCapabilities s P [.notes N] = .done s1 ∧
      (∀ k v, lookup? N k = some v → noteAt s1 P k = some v) ∧
      (∀ k, lookup? N k = none → noteAt s1 P k = noteAt s P k)) ∧
    (∀ (C : Capability) (p1 p2 : NotePtr), ∃ s1 s2,
      unwrapProviderCapabilities s P [.notes (some (GoMap.lit [(C, p1)]))] = .done s1 ∧
      unwrapProviderCapabilities s1 P [.notes (some (GoMap.lit [(C, p2)]))] = .done s2 ∧
      noteAt s2 P C = some p2 ∧
      (∀ k, k ≠ C → noteAt s2 P k = noteAt s P k)) := by
  have one : ∀ (t : Registry) (N : DocumentationNotes), ∃ s1,
      unwrapProviderCapabilities t P [.notes N] = .done s1 ∧
      ∀ k, noteAt s1 P k = overlay (lookup? N k) (noteAt t P k) := by
    intro t N
    obtain ⟨s1, hs1, -, hnote, -⟩ := switchItem_spec t P (.notes N) rfl
    refine ⟨s1, by simp only [unwrapProviderCapabilities, hs1], ?_⟩
    intro k
    rw [hnote P k]
    simp [ProviderMetadata.noteFor]
  refine ⟨?_, ?_⟩
  · intro N
    obtain ⟨s1, hs1, hk⟩ := one s N
    refine ⟨s1, hs1, ?_, ?_⟩
    · intro k v hv
      rw [hk k, hv]
      rfl
    · intro k hv
      rw [hk k, hv]
      rfl
  · intro C p1 p2
    obtain ⟨s1, hs1, hk1⟩ := one s (some (GoMap.lit [(C, p1)]))
    obtain ⟨s2, hs2, hk2⟩ := one s1 (some (GoMap.lit [(C, p2)]))
    refine ⟨s1, s2, hs1, hs2, ?_, ?_⟩
    · rw [hk2 C, lookup?_lit_single]
      simp [overlay]
    · intro k hk
      rw [hk2 k, hk1 k, lookup?_lit_single, lookup?_lit_single]
      simp [overlay, hk]

/-- C6: on a list of Capability and DocumentationNotes items, in any
interleaving, the call ends normally, `ProviderHasCabability(P, A)` is then true
for every Capability item `A` of the list, and for every capability `k` and
item giving a pointer for `k` with no later item giving one, `Notes[P][k]` is
that pointer: the note given for `k` by the last such item in list order. -/
theorem C6_mixed_items_registered (s : Registry) (P : String)
    (items : List ProviderMetadata) (hrec : ∀ pm ∈ items, pm.isOther = false) :
    ∃ s1, unwrapProviderCapabilities s P items = .done s1 ∧
      (∀ A, ProviderMetadata.capability A ∈ items → ProviderHasCabability s1 P A = true) ∧
      (∀ k v pre pm post, items = pre ++ pm :: post → pm.noteFor k = some v →
        (∀ pm2 ∈ post, pm2.noteFor k = none) → noteAt s1 P k = some v) := by
  obtain ⟨s1, hs1, hcap, -⟩ := unwrap_spec P items s hrec
  refine ⟨s1, hs1, ?_, ?_⟩
  · intro A hA
    exact (hcap P A).mpr (Or.inr ⟨rfl, hA⟩)
  · intro k v pre pm post hitems hv hpost
    subst hitems
    exact unwrap_last_note s s1 P k v pre post pm hs1 hv hpost

/-- C6 at the input of the specification: the items `[A, {A: Can("ok")}]`
give `ProviderHasCabability(P, A) == true` and `Notes[P][A].Comment == "ok"`. -/
theorem C6_mixed_items_registered_witness :
    ∃ h p s1, Can ⟨[]⟩ ["ok"] = some (h, p) ∧
      unwrapProviderCapabilities Registry.init "P"
        [.capability CanUseAlias, .notes (some (GoMap.lit [(CanUseAlias, p)]))] = .done s1 ∧
      ProviderHasCabability s1 "P" CanUseAlias = true ∧
      noteAt s1 "P" CanUseAlias = some p ∧
      (h.deref p).map DocumentationNote.Comment = some "ok" := by
  obtain ⟨s1, hs1, hcap, hnote⟩ := C6_mixed_items_registered Registry.init "P"
    [.capability CanUseAlias, .notes (some (GoMap.lit [(CanUseAlias, some 0)]))]
    (by
      intro pm hpm
      simp only [List.mem_cons, List.mem_singleton, List.not_mem_nil, or_false] at hpm
      rcases hpm with e | e <;> subst e <;> rfl)
  exact ⟨⟨[⟨true, "ok", ""⟩]⟩, some 0, s1, rfl, hs1, hcap CanUseAlias (List.mem_cons_self _ _),
    hnote CanUseAlias (some 0) [.capability CanUseAlias]
      (.notes (some (GoMap.lit [(CanUseAlias, some 0)]))) [] rfl rfl (by simp), rfl⟩

/-- C7: capability sets only grow.  If `ProviderHasCabability(P, C)` is true in
a state, it is true after every registration call that ends normally (for any
provider, with any item list), hence after every sequence of such calls. -/
theorem C7_capabilities_only_grow (s : Registry) (P : String) (C : Capability)
    (hhas : ProviderHasCabability s P C = true) :
    (∀ Q items s1, unwrapProviderCapabilities s Q items = .done s1 →
      ProviderHasCabability s1 P C = true) ∧
    (∀ calls s1, runCalls calls s = .done s1 → ProviderHasCabability s1 P C = true) := by
  refine ⟨?_, ?_⟩
  · intro Q items s1 h
    exact ((unwrap_done_spec s s1 Q items h).1 P C).mpr (Or.inl hhas)
  · intro calls s1 h
    exact ((runCalls_spec calls s s1 h).1 P C).mpr (Or.inl hhas)

/-- C7 at a concrete input: provider `a` has CanUseCAA in `sampleRegistry` and
still has it after `sampleCalls`, which declare other things for `a` and `b`. -/
theorem C7_capabilities_only_grow_witness :
    ProviderHasCabability sampleRegistry "a" CanUseCAA = true ∧
      runCalls sampleCalls sampleRegistry = .done (runCalls sampleCalls sampleRegistry).state ∧
      ProviderHasCabability (runCalls sampleCalls sampleRegistry).state "a" CanUseCAA = true :=
  ⟨rfl, rfl, (C7_capabilities_only_grow sampleRegistry "a" CanUseCAA rfl).2 sampleCalls
    (runCalls sampleCalls sampleRegistry).state rfl⟩

/-- C8: for every list of strings `cs` (and every heap), `Can(cs...)` does not
panic and returns a pointer to a note with HasFeature true, Comment `cs[0]` when
`cs` is non-empty and the empty string otherwise, Link `cs[1]` when `cs` has at
least two elements and the empty string otherwise.  So `Can()` has empty
Comment and Link, `Can("x")` has Comment `x` and empty Link, and `Can("x","y")`
has both set. -/
theorem C8_Can_note (h : Heap) (cs : List String) :
    returnedNote (Can h cs)
        = some { HasFeature := true, Comment := cs.getD 0 "", Link := cs.getD 1 "" } ∧
      returnedNote (Can h []) = some { HasFeature := true, Comment := "", Link := "" } ∧
      (∀ x, returnedNote (Can h [x])
        = some { HasFeature := true, Comment := x, Link := "" }) ∧
      (∀ x y, returnedNote (Can h [x, y])
        = some { HasFeature := true, Comment := x, Link := y }) :=
  ⟨returnedNote_Can h cs, returnedNote_Can h [], fun x => returnedNote_Can h [x],
    fun x y => returnedNote_Can h [x, y]⟩

/-- C9: for every list of strings `cs` (and every heap), `Cannot(cs...)` does
not panic and returns a pointer to a note with HasFeature false, Comment `cs[0]`
when `cs` is non-empty and the empty string otherwise, Link `cs[1]` when `cs`
has at least two elements and the empty string otherwise; the note differs from
the one of `Can(cs...)` in the HasFeature field only. -/
theorem C9_Cannot_note (h : Heap) (cs : List String) :
    returnedNote (Cannot h cs)
        = some { HasFeature := false, Comment := cs.getD 0 "", Link := cs.getD 1 "" } ∧
      ∃ n m, returnedNote (Can h cs) = some n ∧ returnedNote (Cannot h cs) = some m ∧
        n.HasFeature = true ∧ m.HasFeature = false ∧
        m.Comment = n.Comment ∧ m.Link = n.Link :=
  ⟨returnedNote_Cannot h cs, _, _, returnedNote_Can h cs, returnedNote_Cannot h cs,
    rfl, rfl, rfl, rfl⟩

/-- C10: arguments beyond the first two are ignored by both constructors: for
all strings `x`, `y` and every list `rest`, `Can(x, y, rest...)` behaves as
`Can(x, y)` and `Cannot(x, y, rest...)` as `Cannot(x, y)`: same heap effect,
same pointer, and the notes returned are equal field for field. -/
theorem C10_extra_arguments_ignored (h : Heap) (x y : String) (rest : List String) :
    Can h (x :: y :: rest) = Can h [x, y] ∧
      Cannot h (x :: y :: rest) = Cannot h [x, y] ∧
      returnedNote (Can h (x :: y :: rest))
        = some { HasFeature := true, Comment := x, Link := y } ∧
      returnedNote (Can h [x, y]) = some { HasFeature := true, Comment := x, Link := y } ∧
      returnedNote (Cannot h (x :: y :: rest))
        = some { HasFeature := false, Comment := x, Link := y } ∧
      returnedNote (Cannot h [x, y])
        = some { HasFeature := false, Comment := x, Link := y } := by
  refine ⟨?_, ?_, returnedNote_Can h _, returnedNote_Can h _, returnedNote_Cannot h _,
    returnedNote_Cannot h _⟩
  · simp [Can, addStrings]
  · simp [Cannot, addStrings]

/-! ## Maps as values: extensionality and repeated assignment -/

section MapValues

variable {K V : Type} [DecidableEq K]

theorem overlay_assoc (a b c : Option V) : overlay (overlay a b) c = overlay a (overlay b c) := by
  cases a <;> rfl

theorem overlay_idem (a b : Option V) : overlay a (overlay a b) = overlay a b := by
  cases a <;> rfl

/-- Two key-unique entry lists with the same keys in the same order and the
same lookups are equal. -/
theorem entries_ext : ∀ (l1 l2 : List (K × V)), (l1.map Prod.fst).Nodup →
    l1.map Prod.fst = l2.map Prod.fst → (∀ k, getEntries k l1 = getEntries k l2) → l1 = l2
  | [], [], _, _, _ => rfl
  | [], _ :: _, _, hk, _ => by simp at hk
  | _ :: _, [], _, hk, _ => by simp at hk
  | (a, b) :: t1, (a2, b2) :: t2, hnd, hk, hg => by
    simp only [List.map_cons, List.cons.injEq] at hk
    obtain ⟨ha, ht⟩ := hk
    subst ha
    rw [List.map_cons, List.nodup_cons] at hnd
    have hb : b = b2 := by
      have := hg a
      simpa [getEntries] using this
    subst hb
    have htail : t1 = t2 := by
      apply entries_ext t1 t2 hnd.2 ht
      intro k
      by_cases hka : a = k
      · subst hka
        rw [getEntries_eq_none_of_not_mem _ _ hnd.1,
          getEntries_eq_none_of_not_mem _ _ (ht ▸ hnd.1)]
      · have := hg k
        simpa [getEntries, hka] using this
    rw [htail]

namespace GoMap

omit [DecidableEq K] in
theorem eq_of_entries (m n : GoMap K V) (h : m.entries = n.entries) : m = n := by
  cases m
  cases n
  simp only at h
  subst h
  rfl

/-- Map objects with the same keys in the same order and the same lookups are equal. -/
theorem ext_keys (m n : GoMap K V) (hk : m.keys = n.keys) (hg : ∀ k, m.get? k = n.get? k) :
    m = n :=
  eq_of_entries m n (entries_ext m.entries n.entries m.nodup hk hg)

theorem keys_set (m : GoMap K V) (k : K) (v : V) :
    (m.set k v).keys = if k ∈ m.keys then m.keys else m.keys ++ [k] :=
  keys_setEntries k v m.entries

theorem get?_set (m : GoMap K V) (k j : K) (v : V) :
    (m.set k v).get? j = overlay (if k = j then some v else none) (m.get? j) := by
  by_cases h : k = j
  · subst h
    simp [get?_set_self, overlay]
  · have h2 : j ≠ k := fun e => h e.symm
    simp [get?_set_ne m k j v h2, h, overlay]

theorem mem_keys_of_get? (m : GoMap K V) (k : K) (v : V) (h : m.get? k = some v) :
    k ∈ m.keys := by
  by_contra hk
  have := getEntries_eq_none_of_not_mem k m.entries hk
  unfold get? at h
  rw [this] at h
  cases h

/-- Writing to a key the value it already holds changes nothing. -/
theorem set_eq_self (m : GoMap K V) (k : K) (v : V) (h : m.get? k = some v) :
    m.set k v = m := by
  apply ext_keys
  · rw [keys_set, if_pos (mem_keys_of_get? m k v h)]
  · intro j
    rw [get?_set]
    by_cases hj : k = j
    · subst hj
      simp [h, overlay]
    · simp [hj, overlay]

/-- Of two writes to the same key only the second is seen. -/
theorem set_set (m : GoMap K V) (k : K) (v w : V) : (m.set k v).set k w = m.set k w := by
  apply ext_keys
  · rw [keys_set, keys_set, keys_set]
    by_cases h : k ∈ m.keys
    · simp [h]
    · simp [h]
  · intro j
    rw [get?_set, get?_set, get?_set]
    by_cases hj : k = j <;> simp [hj, overlay]

theorem setAll_nil (m : GoMap K V) : m.setAll [] = m := rfl

theorem setAll_cons (m : GoMap K V) (kv : K × V) (t : List (K × V)) :
    m.setAll (kv :: t) = (m.set kv.1 kv.2).setAll t := rfl

theorem setAll_append (m : GoMap K V) (a b : List (K × V)) :
    m.setAll (a ++ b) = (m.setAll a).setAll b := by
  unfold setAll
  rw [List.foldl_append]

theorem get?_setAll (l : List (K × V)) :
    ∀ (m : GoMap K V) (k : K), (m.setAll l).get? k = overlay (lastWrite k l) (m.get? k) := by
  induction l with
  | nil => intro m k; rfl
  | cons hd t ih =>
    obtain ⟨a, b⟩ := hd
    intro m k
    rw [setAll_cons, ih, get?_set, ← overlay_assoc]
    rfl

theorem mem_keys_set_of_mem (m : GoMap K V) (k j : K) (v : V) (h : j ∈ m.keys) :
    j ∈ (m.set k v).keys := by
  rw [keys_set]
  split
  · exact h
  · exact List.mem_append_left _ h

theorem mem_keys_set_self (m : GoMap K V) (k : K) (v : V) : k ∈ (m.set k v).keys :=
  mem_keys_of_get? _ k v (get?_set_self m k v)

theorem mem_keys_setAll_of_mem (l : List (K × V)) :
    ∀ (m : GoMap K V) (j : K), j ∈ m.keys → j ∈ (m.setAll l).keys := by
  induction l with
  | nil => intro m j h; exact h
  | cons hd t ih =>
    intro m j h
    rw [setAll_cons]
    exact ih _ j (mem_keys_set_of_mem m hd.1 j hd.2 h)

theorem mem_keys_setAll_of_write (l : List (K × V)) :
    ∀ (m : GoMap K V) (kv : K × V), kv ∈ l → kv.1 ∈ (m.setAll l).keys := by
  induction l with
  | nil => intro m kv h; simp at h
  | cons hd t ih =>
    intro m kv h
    rw [setAll_cons]
    rcases List.mem_cons.mp h with e | hmem
    · subst e
      exact mem_keys_setAll_of_mem t _ _ (mem_keys_set_self m kv.1 kv.2)
    · exact ih _ kv hmem

theorem keys_setAll_of_subset (l : List (K × V)) :
    ∀ (m : GoMap K V), (∀ kv ∈ l, kv.1 ∈ m.keys) → (m.setAll l).keys = m.keys := by
  induction l with
  | nil => intro m _; rfl
  | cons hd t ih =>
    intro m h
    have hk : (m.set hd.1 hd.2).keys = m.keys := by
      rw [keys_set, if_pos (h hd (List.mem_cons_self _ _))]
    rw [setAll_cons, ih, hk]
    intro kv hkv
    rw [hk]
    exact h kv (List.mem_cons_of_mem _ hkv)

/-- Running a list of assignments a second time changes nothing. -/
theorem setAll_setAll (m : GoMap K V) (l : List (K × V)) :
    (m.setAll l).setAll l = m.setAll l := by
  apply ext_keys
  · exact keys_setAll_of_subset l _ (fun kv hkv => mem_keys_setAll_of_write l m kv hkv)
  · intro k
    rw [get?_setAll, get?_setAll, overlay_idem]

end GoMap

end MapValues

/-! ## Closed form of a call -/

theorem capWrites_of_no_cap (items : List ProviderMetadata) (h : hasCapItem items = false) :
    capWrites items = [] := by
  induction items with
  | nil => rfl
  | cons pm t ih =>
    cases pm with
    | capability x => simp [hasCapItem] at h
    | notes x => exact ih h
    | other ty => exact ih h

theorem mergeInto_false {K V : Type} [DecidableEq K] (m : GoMap String (Option (GoMap K V)))
    (pName : String) (l : List (K × V)) : mergeInto m pName false l = m := rfl

/-- A first write `w` to the provider's map, then the merge of `l`, is the
merge of `w :: l`. -/
theorem mergeInto_after_set {K V : Type} [DecidableEq K]
    (m : GoMap String (Option (GoMap K V))) (pName : String) (i : GoMap K V)
    (b : Bool) (l : List (K × V)) (hl : b = false → l = []) :
    mergeInto (m.set pName (some i)) pName b l = m.set pName (some (i.setAll l)) := by
  cases b with
  | false => rw [hl rfl]; rfl
  | true =>
    simp only [mergeInto, if_true, GoMap.index_set_self, orEmpty, GoMap.set_set]

/-- Merging the same entries a second time changes nothing. -/
theorem mergeInto_idem {K V : Type} [DecidableEq K] (m : GoMap String (Option (GoMap K V)))
    (pName : String) (b : Bool) (l : List (K × V)) :
    mergeInto (mergeInto m pName b l) pName b l = mergeInto m pName b l := by
  cases b with
  | false => rfl
  | true =>
    simp only [mergeInto, if_true, GoMap.index_set_self, orEmpty, GoMap.set_set,
      GoMap.setAll_setAll]

theorem noteWrites_of_no_notes (items : List ProviderMetadata)
    (h : hasNotesItem items = false) : noteWrites items = [] := by
  induction items with
  | nil => rfl
  | cons pm t ih =>
    cases pm with
    | capability x => exact ih h
    | notes x => simp [hasNotesItem] at h
    | other ty => exact ih h

/-- Closed form of the `case Capability` arm: one write into the provider's
map, created empty when it was nil. -/
theorem caseCapability_closed (s : Registry) (pName : String) (x : Capability) :
    caseCapability s pName x = .done { s with providerCapabilities := (
      s.providerCapabilities.set pName
        (some ((orEmpty (s.providerCapabilities.index pName)).set x true))) } := by
  rw [caseCapability_eq]
  cases h : s.providerCapabilities.index pName with
  | none => simp only [orEmpty, GoMap.set_set]
  | some m => simp only [orEmpty]

/-- Closed form of the `range` loop of lines 71-73. -/
theorem rangeAssign_closed (pName : String) (l : List (Capability × NotePtr)) :
    ∀ (s : Registry) (m0 : GoMap Capability NotePtr), s.Notes.get? pName = some (some m0) →
      rangeAssign pName l s
        = .done { s with Notes := s.Notes.set pName (some (m0.setAll l)) } := by
  induction l with
  | nil =>
    intro s m0 h
    simp only [rangeAssign, GoMap.setAll_nil, GoMap.set_eq_self _ _ _ h]
  | cons hd t ih =>
    obtain ⟨k, v⟩ := hd
    intro s m0 h
    have hidx : s.Notes.index pName = some m0 := GoMap.index_of_get? _ _ _ h
    simp only [rangeAssign, hidx]
    rw [ih { s with Notes := s.Notes.set pName (some (m0.set k v)) } (m0.set k v)
      (GoMap.get?_set_self _ _ _)]
    simp only [GoMap.set_set, GoMap.setAll_cons]

/-- Closed form of the `case DocumentationNotes` arm: the entries of `x` are
written into the provider's map, created empty when it was nil. -/
theorem caseDocumentationNotes_closed (s : Registry) (pName : String)
    (x : DocumentationNotes) :
    caseDocumentationNotes s pName x = .done { s with Notes := (
      s.Notes.set pName (some ((orEmpty (s.Notes.index pName)).setAll
        (noteWrites [.notes x])))) } := by
  unfold caseDocumentationNotes
  cases h : s.Notes.index pName with
  | none =>
    cases x with
    | none => simp only [orEmpty, noteWrites, GoMap.setAll_nil]
    | some m =>
      simp only [orEmpty, noteWrites, List.append_nil]
      rw [rangeAssign_closed pName m.entries _ GoMap.empty (GoMap.get?_set_self _ _ _)]
      simp only [GoMap.set_set]
  | some m0 =>
    have hg : s.Notes.get? pName = some (some m0) := GoMap.get?_of_index_eq_some _ _ _ h
    cases x with
    | none =>
      simp only [orEmpty, noteWrites, GoMap.setAll_nil, GoMap.set_eq_self _ _ _ hg]
    | some m =>
      simp only [orEmpty, noteWrites, List.append_nil]
      exact rangeAssign_closed pName m.entries s m0 hg

/-- Closed form of a call on recognised items: each registry is the old one
with the call's writes merged into the provider's map. -/
theorem unwrap_closed (pName : String) (items : List ProviderMetadata) :
    ∀ s : Registry, (∀ pm ∈ items, pm.isOther = false) →
      unwrapProviderCapabilities s pName items
        = .done ⟨mergeInto s.providerCapabilities pName (hasCapItem items) (capWrites items),
            mergeInto s.Notes pName (hasNotesItem items) (noteWrites items)⟩ := by
  induction items with
  | nil => intro s _; rfl
  | cons pm t ih =>
    intro s hall
    have ht : ∀ x ∈ t, x.isOther = false := fun x hx => hall x (List.mem_cons_of_mem _ hx)
    cases pm with
    | other ty =>
      have := hall (.other ty) (List.mem_cons_self _ _)
      simp [ProviderMetadata.isOther] at this
    | capability x =>
      have hstep : switchItem s pName (.capability x) = _ := caseCapability_closed s pName x
      rw [unwrap_cons_done s _ pName _ t hstep, ih _ ht]
      simp only [hasCapItem, capWrites, hasNotesItem, noteWrites]
      rw [mergeInto_after_set _ _ _ _ _ (capWrites_of_no_cap t)]
      rfl
    | notes x =>
      have hstep : switchItem s pName (.notes x) = _ := caseDocumentationNotes_closed s pName x
      rw [unwrap_cons_done s _ pName _ t hstep, ih _ ht]
      simp only [hasCapItem, capWrites, hasNotesItem]
      rw [mergeInto_after_set _ _ _ _ _ (noteWrites_of_no_notes t), ← GoMap.setAll_append]
      cases x with
      | none => rfl
      | some m =>
        simp only [noteWrites, List.append_nil, mergeInto, if_true]

/-- A call on recognised items, run again on the registries it left, leaves
them as they are. -/
theorem unwrap_twice (s s1 : Registry) (pName : String) (items : List ProviderMetadata)
    (h : unwrapProviderCapabilities s pName items = .done s1) :
    unwrapProviderCapabilities s1 pName items = .done s1 := by
  have hall := unwrap_done_no_other s s1 pName items h
  rw [unwrap_closed pName items s hall] at h
  injection h with h
  subst h
  rw [unwrap_closed pName items _ hall]
  simp only [mergeInto_idem]

/-! ## Claims, continued -/

/-- C11: declaring a capability is idempotent on the whole state: for every
state, provider `P` and capability `C`, `unwrapProviderCapabilities(P, [C])`
run a second time leaves exactly the capability registry and the notes registry
that the first run left. -/
theorem C11_declare_idempotent (s : Registry) (P : String) (C : Capability) :
    ∃ s1, unwrapProviderCapabilities s P [.capability C] = .done s1 ∧
      unwrapProviderCapabilities s1 P [.capability C] = .done s1 := by
  obtain ⟨s1, hs1, -⟩ := unwrap_spec P [.capability C] s (by
    intro pm hpm
    rw [List.mem_singleton] at hpm
    subst hpm
    rfl)
  exact ⟨s1, hs1, unwrap_twice s s1 P _ hs1⟩

/-- C12: provider keys are compared exactly and providers are isolated: for
provider ids `P ≠ Q` (as strings, so also when they differ in letter case only)
a call `unwrapProviderCapabilities(P, items)` that ends normally leaves
`ProviderHasCabability(Q, c)` unchanged for every `c` and leaves the entries of
`Q` in both registries, hence `Notes[Q]`, unchanged. -/
theorem C12_providers_isolated (s s1 : Registry) (P Q : String)
    (items : List ProviderMetadata) (hne : P ≠ Q)
    (hrun : unwrapProviderCapabilities s P items = .done s1) :
    (∀ c, ProviderHasCabability s1 Q c = ProviderHasCabability s Q c) ∧
      s1.providerCapabilities.get? Q = s.providerCapabilities.get? Q ∧
      s1.Notes.get? Q = s.Notes.get? Q ∧
      s1.Notes.index Q = s.Notes.index Q ∧
      (∀ k, noteAt s1 Q k = noteAt s Q k) := by
  obtain ⟨-, hfr, -⟩ := unwrap_done_spec s s1 P items hrun
  obtain ⟨hpc, hN⟩ := hfr Q (fun e => hne e.symm)
  exact ⟨fun c => ProviderHasCabability_congr s1 s Q hpc c, hpc, hN,
    GoMap.index_congr _ _ _ hN, fun k => noteAt_congr s1 s Q hN k⟩

/-- C12 at a concrete input: a call for provider `A` on `sampleRegistry`, where
provider `a` has CanUseCAA, changes nothing for `a`. -/
theorem C12_providers_isolated_witness :
    "A" ≠ "a" ∧
      unwrapProviderCapabilities sampleRegistry "A" sampleItems
        = .done (unwrapProviderCapabilities sampleRegistry "A" sampleItems).state ∧
      (∀ c, ProviderHasCabability
          (unwrapProviderCapabilities sampleRegistry "A" sampleItems).state "a" c
        = ProviderHasCabability sampleRegistry "a" c) ∧
      (∀ k, noteAt (unwrapProviderCapabilities sampleRegistry "A" sampleItems).state "a" k
        = noteAt sampleRegistry "a" k) :=
  have h := C12_providers_isolated sampleRegistry
    (unwrapProviderCapabilities sampleRegistry "A" sampleItems).state "A" "a" sampleItems
    (by decide) rfl
  ⟨by decide, rfl, h.1, h.2.2.2.2⟩

/-- C13: the eight named Capability constants are the consecutive integers 0
through 7 in declaration order, hence pairwise distinct. -/
theorem C13_constants_consecutive_distinct :
    [CanUseAlias, CanUsePTR, CanUseSRV, CanUseCAA, CantUseNOPURGE, DocOfficiallySupported,
        DocDualHost, DocCreateDomains] = [0, 1, 2, 3, 4, 5, 6, 7] ∧
      [CanUseAlias, CanUsePTR, CanUseSRV, CanUseCAA, CantUseNOPURGE, DocOfficiallySupported,
        DocDualHost, DocCreateDomains].Nodup := by
  decide

/-- C16: the abort stops at the first bad item.  When `pre` holds recognised
items only and is followed by an item of another type, the call on `pre` alone
ends normally in some registries `s1`, and the call on the whole list, whatever
follows the bad item, ends in the fatal error with exactly the registries `s1`:
the items before the bad one are registered, no item after it has any effect. -/
theorem C16_abort_at_first_bad_item (s : Registry) (P : String)
    (pre : List ProviderMetadata) (ty : String) (hpre : ∀ pm ∈ pre, pm.isOther = false) :
    ∃ s1, unwrapProviderCapabilities s P pre = .done s1 ∧
      ∀ post, unwrapProviderCapabilities s P (pre ++ .other ty :: post)
        = .fatal ("Unrecognized ProviderMetadata type: " ++ ty) s1 := by
  obtain ⟨s1, hs1, -⟩ := unwrap_spec P pre s hpre
  refine ⟨s1, hs1, ?_⟩
  intro post
  rw [unwrap_append, hs1]
  rfl

/-- C16 at a concrete input: CanUsePTR is registered, the string aborts the
call, CanUseSRV after it is not registered. -/
theorem C16_abort_at_first_bad_item_witness :
    ∃ s1, unwrapProviderCapabilities Registry.init "a" [.capability CanUsePTR] = .done s1 ∧
      unwrapProviderCapabilities Registry.init "a"
          ([.capability CanUsePTR] ++ .other "string" :: [.capability CanUseSRV])
        = .fatal ("Unrecognized ProviderMetadata type: " ++ "string") s1 ∧
      ProviderHasCabability s1 "a" CanUsePTR = true ∧
      ProviderHasCabability s1 "a" CanUseSRV = false := by
  obtain ⟨s1, h1, h2⟩ := C16_abort_at_first_bad_item Registry.init "a"
    [.capability CanUsePTR] "string" (by
      intro pm hpm
      rw [List.mem_singleton] at hpm
      subst hpm
      rfl)
  have e : s1 = (unwrapProviderCapabilities Registry.init "a" [.capability CanUsePTR]).state := by
    rw [h1]
    rfl
  refine ⟨s1, h1, h2 _, ?_, ?_⟩
  · rw [e]
    rfl
  · rw [e]
    rfl

/-- C17: exact characterisation of the capability query after a call.  For
every state, provider `P`, capability `C` and list of recognised items, the
call ends normally and afterwards `ProviderHasCabability(P, C)` is true if and
only if it was true before or `C` occurs as a Capability item of the list. -/
theorem C17_has_after_call_iff (s : Registry) (P : String) (C : Capability)
    (items : List ProviderMetadata) (hrec : ∀ pm ∈ items, pm.isOther = false) :
    ∃ s1, unwrapProviderCapabilities s P items = .done s1 ∧
      (ProviderHasCabability s1 P C = true ↔
        ProviderHasCabability s P C = true ∨ ProviderMetadata.capability C ∈ items) := by
  obtain ⟨s1, hs1, hcap, -⟩ := unwrap_spec P items s hrec
  refine ⟨s1, hs1, ?_⟩
  rw [hcap P C]
  simp

/-- C17 at a concrete input: after `sampleItems` for provider `a` on
`sampleRegistry`, CanUseSRV, which `a` had not and which occurs only as a note
key, is still not reported. -/
theorem C17_has_after_call_iff_witness :
    ∃ s1, unwrapProviderCapabilities sampleRegistry "a" sampleItems = .done s1 ∧
      ProviderHasCabability s1 "a" CanUseSRV = false := by
  obtain ⟨s1, h1, h2⟩ := C17_has_after_call_iff sampleRegistry "a" CanUseSRV sampleItems (by
    intro pm hpm
    simp only [sampleItems, List.mem_cons, List.mem_singleton, List.not_mem_nil,
      or_false] at hpm
    rcases hpm with e | e | e <;> subst e <;> rfl)
  refine ⟨s1, h1, ?_⟩
  cases hv : ProviderHasCabability s1 "a" CanUseSRV with
  | false => rfl
  | true =>
    rcases h2.mp hv with h | h
    · exact absurd h (by decide)
    · simp [sampleItems, CanUseSRV, CanUsePTR] at h

/-- C18: the two registries are independent.  Registering a DocumentationNotes
item, whatever its notes say (HasFeature true included), leaves the capability
registry as it is, so no `ProviderHasCabability(P, C)` changes; registering a
Capability item leaves the notes registry as it is, so no `Notes[P][k]`
changes. -/
theorem C18_registries_independent (s : Registry) (Q : String) :
    (∀ x : DocumentationNotes, ∃ s1,
      unwrapProviderCapabilities s Q [.notes x] = .done s1 ∧
      s1.providerCapabilities = s.providerCapabilities ∧
      ∀ P C, ProviderHasCabability s1 P C = ProviderHasCabability s P C) ∧
    (∀ c : Capability, ∃ s1,
      unwrapProviderCapabilities s Q [.capability c] = .done s1 ∧
      s1.Notes = s.Notes ∧
      ∀ P k, noteAt s1 P k = noteAt s P k) := by
  refine ⟨?_, ?_⟩
  · intro x
    have h := unwrap_cons_done s _ Q (.notes x) [] (caseDocumentationNotes_closed s Q x)
    exact ⟨_, h, rfl, fun _ _ => rfl⟩
  · intro c
    have h := unwrap_cons_done s _ Q (.capability c) [] (caseCapability_closed s Q c)
    exact ⟨_, h, rfl, fun _ _ => rfl⟩

/-- C19: a whole registration call is idempotent.  For every state, provider
and list of recognised items, with any overlap between its note sets, the call
ends normally, and run a second time it leaves exactly the capability registry
and the notes registry that the first run left. -/
theorem C19_call_idempotent (s : Registry) (P : String) (items : List ProviderMetadata)
    (hrec : ∀ pm ∈ items, pm.isOther = false) :
    ∃ s1, unwrapProviderCapabilities s P items = .done s1 ∧
      unwrapProviderCapabilities s1 P items = .done s1 := by
  obtain ⟨s1, hs1, -⟩ := unwrap_spec P items s hrec
  exact ⟨s1, hs1, unwrap_twice s s1 P items hs1⟩

/-- C19 at a concrete input: `sampleItems`, whose two note sets both give a
note for CanUseAlias, registered twice for provider `a`. -/
theorem C19_call_idempotent_witness :
    ∃ s1, unwrapProviderCapabilities sampleRegistry "a" sampleItems = .done s1 ∧
      unwrapProviderCapabilities s1 "a" sampleItems = .done s1 ∧
      noteAt s1 "a" CanUseAlias = some (some 1) := by
  obtain ⟨s1, h1, h2⟩ := C19_call_idempotent sampleRegistry "a" sampleItems (by
    intro pm hpm
    simp only [sampleItems, List.mem_cons, List.mem_singleton, List.not_mem_nil,
      or_false] at hpm
    rcases hpm with e | e | e <;> subst e <;> rfl)
  have e : s1 = (unwrapProviderCapabilities sampleRegistry "a" sampleItems).state := by
    rw [h1]
    rfl
  refine ⟨s1, h1, h2, ?_⟩
  rw [e]
  rfl

/-! ## Map references: what a call and a caller do to the shared objects -/

theorem overlay_none_right {V : Type} (a : Option V) : overlay a none = a := by
  cases a <;> rfl

/-- On key-unique entries the last write to a key is its only one. -/
theorem lastWrite_of_nodup {K V : Type} [DecidableEq K] (k : K) (l : List (K × V))
    (h : (l.map Prod.fst).Nodup) : lastWrite k l = getEntries k l := by
  induction l with
  | nil => rfl
  | cons hd t ih =>
    obtain ⟨a, b⟩ := hd
    rw [List.map_cons, List.nodup_cons] at h
    by_cases hk : a = k
    · subst hk
      simp only [lastWrite, getEntries, if_true, ih h.2,
        getEntries_eq_none_of_not_mem _ _ h.1]
      rfl
    · simp only [lastWrite, getEntries, hk, if_false, ih h.2, overlay_none_right]

theorem GoMap.get?_erase_self {K V : Type} [DecidableEq K] (m : GoMap K V) (k : K) :
    (m.erase k).get? k = none := by
  apply getEntries_eq_none_of_not_mem
  simp [GoMap.erase]

theorem MapHeap.read_set_ne (mh : MapHeap) (a b : Addr) (m : GoMap Capability NotePtr)
    (hne : b ≠ a) : (MapHeap.mk (mh.objs.set a m)).read (some b) = mh.read (some b) := by
  have hab : ¬ a = b := fun e => hne e.symm
  simp [MapHeap.read, List.getElem?_set, hab]

theorem MapHeap.read_set_self (mh : MapHeap) (a : Addr) (m0 m : GoMap Capability NotePtr)
    (h : mh.objs[a]? = some m0) : (MapHeap.mk (mh.objs.set a m)).read (some a) = some m := by
  have hlt : a < mh.objs.length := by
    by_contra hge
    rw [List.getElem?_eq_none (Nat.le_of_not_lt hge)] at h
    cases h
  simp [MapHeap.read, hlt]

/-- The loop on references writes all its entries into the one object
`Notes[pName]` refers to and touches no other object. -/
theorem rangeAssignRef_spec (N : GoMap String NotesRef) (pName : String) (b : Addr)
    (hN : N.index pName = some b) (l : List (Capability × NotePtr)) :
    ∀ (mh : MapHeap) (mb : GoMap Capability NotePtr), mh.objs[b]? = some mb →
      ∃ mh1, rangeAssignRef N pName l mh = some mh1 ∧
        mh1.read (some b) = some (mb.setAll l) ∧
        ∀ a, a ≠ b → mh1.read (some a) = mh.read (some a) := by
  induction l with
  | nil =>
    intro mh mb h
    exact ⟨mh, rfl, h, fun _ _ => rfl⟩
  | cons hd t ih =>
    obtain ⟨k, v⟩ := hd
    intro mh mb h
    have hstep : mh.assign (N.index pName) k v = some ⟨mh.objs.set b (mb.set k v)⟩ := by
      simp [MapHeap.assign, hN, h]
    obtain ⟨mh1, hr, hb, hfr⟩ := ih ⟨mh.objs.set b (mb.set k v)⟩ (mb.set k v)
      (MapHeap.read_set_self mh b mb _ h)
    refine ⟨mh1, ?_, hb, ?_⟩
    · simp only [rangeAssignRef, hstep]
      exact hr
    · intro a ha
      rw [hfr a ha]
      exact MapHeap.read_set_ne mh b a _ ha

/-- The `case DocumentationNotes` arm on references, for a map `x` the caller
holds that is not the registry's own map of `pName`: the call does not panic,
leaves `x` as it is, and merges the entries of `x` into the map that
`Notes[pName]` refers to, which is another object than `x`. -/
theorem caseDocumentationNotesRef_spec (mh : MapHeap) (N : GoMap String NotesRef)
    (pName : String) (a : Addr) (mx : GoMap Capability NotePtr)
    (hx : mh.objs[a]? = some mx) (hne : N.index pName ≠ some a)
    (hvalid : ∀ b, N.index pName = some b → ∃ mb, mh.objs[b]? = some mb) :
    ∃ mh1 N1 b, caseDocumentationNotesRef mh N pName (some a) = some (mh1, N1) ∧
      N1.index pName = some b ∧ b ≠ a ∧
      mh1.read (some a) = some mx ∧
      (∀ k, notePtrAtRef mh1 N1 pName k = overlay (mx.get? k) (notePtrAtRef mh N pName k)) := by
  have halt : a < mh.objs.length := by
    by_contra hge
    rw [List.getElem?_eq_none (Nat.le_of_not_lt hge)] at hx
    cases hx
  cases hidx : N.index pName with
  | none =>
    have hb : mh.objs.length ≠ a := Nat.ne_of_gt halt
    have hxa : (mh.objs ++ [GoMap.empty])[a]? = some mx := by
      rw [List.getElem?_append_left halt]
      exact hx
    have hnew : (mh.objs ++ [(GoMap.empty : GoMap Capability NotePtr)])[mh.objs.length]?
        = some GoMap.empty := by simp
    obtain ⟨mh1, hr, hrb, hfr⟩ := rangeAssignRef_spec (N.set pName (some mh.objs.length)) pName
      mh.objs.length (GoMap.index_set_self _ _ _) mx.entries ⟨mh.objs ++ [GoMap.empty]⟩
      GoMap.empty hnew
    refine ⟨mh1, N.set pName (some mh.objs.length), mh.objs.length, ?_,
      GoMap.index_set_self _ _ _, hb, ?_, ?_⟩
    · simp only [caseDocumentationNotesRef, hidx, MapHeap.alloc, hxa, hr]
    · rw [hfr a (fun e => hb e.symm)]
      exact hxa
    · intro k
      have e1 : notePtrAtRef mh1 (N.set pName (some mh.objs.length)) pName k
          = (GoMap.empty.setAll mx.entries).get? k := by
        unfold notePtrAtRef
        rw [GoMap.index_set_self, hrb]
        rfl
      have e2 : notePtrAtRef mh N pName k = none := by
        unfold notePtrAtRef
        rw [hidx]
        rfl
      rw [e1, e2, GoMap.get?_setAll, lastWrite_of_nodup k mx.entries mx.nodup]
      rfl
  | some b =>
    obtain ⟨mb, hmb⟩ := hvalid b hidx
    have hba : b ≠ a := fun e => hne (by rw [hidx, e])
    obtain ⟨mh1, hr, hrb, hfr⟩ := rangeAssignRef_spec N pName b hidx mx.entries mh mb hmb
    refine ⟨mh1, N, b, ?_, hidx, hba, ?_, ?_⟩
    · simp only [caseDocumentationNotesRef, hidx, hx, hr]
    · rw [hfr a (fun e => hba e.symm)]
      exact hx
    · intro k
      have e1 : notePtrAtRef mh1 N pName k = (mb.setAll mx.entries).get? k := by
        unfold notePtrAtRef
        rw [hidx, hrb]
        rfl
      have e2 : notePtrAtRef mh N pName k = mb.get? k := by
        unfold notePtrAtRef
        rw [hidx]
        simp only [MapHeap.read, hmb]
        rfl
      rw [e1, e2, GoMap.get?_setAll, lastWrite_of_nodup k mx.entries mx.nodup]
      rfl

/-- C14 fails as stated.  `DocumentationNotes{CanUseAlias: Can("ok")}` is
registered for `P` on the empty registry and the registry reports the note with
Comment `ok`.  Then (a) the caller sets Comment through the pointer it passed,
which is the pointer `Notes["P"][CanUseAlias]` reads back, and the registry
reports Comment `changed`; (b) the caller assigns nil at CanUseAlias in the
value read from `Notes["P"]`, and the registry reports no note at all. -/
theorem C14_snapshot_counterexample :
    Can ⟨[]⟩ ["ok"] = some (okHeap, some 0) ∧
      caseDocumentationNotesRef callerMaps GoMap.empty "P" (some 0)
        = some (registeredMaps, registeredNotes) ∧
      notePtrAtRef registeredMaps registeredNotes "P" CanUseAlias = some (some 0) ∧
      noteAt (unwrapProviderCapabilities Registry.init "P"
          [.notes (some (GoMap.lit [(CanUseAlias, some 0)]))]).state "P" CanUseAlias
        = some (some 0) ∧
      reportedNote okHeap registeredMaps registeredNotes "P" CanUseAlias
        = some ⟨true, "ok", ""⟩ ∧
      okHeap.modify (some 0) (setComment "changed") = some ⟨[⟨true, "changed", ""⟩]⟩ ∧
      reportedNote ⟨[⟨true, "changed", ""⟩]⟩ registeredMaps registeredNotes "P" CanUseAlias
        = some ⟨true, "changed", ""⟩ ∧
      registeredNotes.index "P" = some 1 ∧
      registeredMaps.assign (registeredNotes.index "P") CanUseAlias none
        = some ⟨[GoMap.lit [(CanUseAlias, some 0)], GoMap.lit [(CanUseAlias, none)]]⟩ ∧
      reportedNote okHeap
          ⟨[GoMap.lit [(CanUseAlias, some 0)], GoMap.lit [(CanUseAlias, none)]]⟩
          registeredNotes "P" CanUseAlias
        = none ∧
      reportedNote ⟨[⟨true, "changed", ""⟩]⟩ registeredMaps registeredNotes "P" CanUseAlias
        ≠ reportedNote okHeap registeredMaps registeredNotes "P" CanUseAlias ∧
      reportedNote okHeap
          ⟨[GoMap.lit [(CanUseAlias, some 0)], GoMap.lit [(CanUseAlias, none)]]⟩
          registeredNotes "P" CanUseAlias
        ≠ reportedNote okHeap registeredMaps registeredNotes "P" CanUseAlias :=
  ⟨rfl, rfl, rfl, rfl, rfl, rfl, rfl, rfl, rfl, rfl, by decide, by decide⟩

/-- C14 as amended: the registry shares its objects with its callers.  (1) The
value read from `Notes[P]` is the registry's own map: an entry a caller assigns
in it is the entry the registry then holds, and an entry a caller deletes from
it is gone.  (2) Notes are held by pointer: a field change made through the
pointer `Notes[P][k]` holds is what the registry reports at `k` afterwards.
(3) Only the map passed to a call is copied: for a map the caller holds, other
than the registry's own map of `P`, the call does not panic, merges the entries
the map has at that time into the registry's map, and no later change to the
passed map changes what the registry reports for `P`. -/
theorem C14_registry_shares_its_objects (h : Heap) (mh : MapHeap)
    (N : GoMap String NotesRef) (P : String) :
    (∀ b m k v, N.index P = some b → mh.objs[b]? = some m →
      ∃ mh1, mh.assign (N.index P) k v = some mh1 ∧ notePtrAtRef mh1 N P k = some v) ∧
    (∀ k, notePtrAtRef (mh.delete (N.index P) k) N P k = none) ∧
    (∀ k p n f, notePtrAtRef mh N P k = some p → h.deref p = some n →
      ∃ h1, h.modify p f = some h1 ∧ reportedNote h1 mh N P k = some (f n)) ∧
    (∀ a mx, mh.objs[a]? = some mx → N.index P ≠ some a →
      (∀ b, N.index P = some b → ∃ mb, mh.objs[b]? = some mb) →
      ∃ mh1 N1, caseDocumentationNotesRef mh N P (some a) = some (mh1, N1) ∧
        (∀ k, notePtrAtRef mh1 N1 P k = overlay (mx.get? k) (notePtrAtRef mh N P k)) ∧
        (∀ mx2 hh k, reportedNote hh ⟨mh1.objs.set a mx2⟩ N1 P k
          = reportedNote hh mh1 N1 P k)) := by
  refine ⟨?_, ?_, ?_, ?_⟩
  · intro b m k v hb hm
    refine ⟨⟨mh.objs.set b (m.set k v)⟩, by simp [MapHeap.assign, hb, hm], ?_⟩
    unfold notePtrAtRef
    rw [hb, MapHeap.read_set_self mh b m _ hm]
    exact GoMap.get?_set_self m k v
  · intro k
    unfold notePtrAtRef
    cases hb : N.index P with
    | none => rfl
    | some b =>
      cases hm : mh.objs[b]? with
      | none => simp [MapHeap.delete, MapHeap.read, hm, lookup?]
      | some m =>
        have e : mh.delete (some b) k = ⟨mh.objs.set b (m.erase k)⟩ := by
          simp [MapHeap.delete, hm]
        rw [e, MapHeap.read_set_self mh b m _ hm]
        exact GoMap.get?_erase_self m k
  · intro k p n f hp hn
    obtain ⟨h1, hm, hd⟩ := Heap.modify_of_deref h p n f hn
    exact ⟨h1, hm, by simp only [reportedNote, hp, hd]⟩
  · intro a mx hx hne hvalid
    obtain ⟨mh1, N1, b, hcall, hb, hba, -, hmerge⟩ :=
      caseDocumentationNotesRef_spec mh N P a mx hx hne hvalid
    refine ⟨mh1, N1, hcall, hmerge, ?_⟩
    intro mx2 hh k
    unfold reportedNote notePtrAtRef
    rw [hb, MapHeap.read_set_ne mh1 a b mx2 hba]

/-- C14 as amended, at a concrete input: registering the caller's map of
`callerMaps` for `P` on the empty registry ends normally, the registry holds
the caller's pointer at CanUseAlias, and emptying the caller's map afterwards
changes nothing in what the registry reports; a Comment written through the
pointer read back is reported. -/
theorem C14_registry_shares_its_objects_witness :
    (∃ mh1 N1, caseDocumentationNotesRef callerMaps GoMap.empty "P" (some 0)
        = some (mh1, N1) ∧
      notePtrAtRef mh1 N1 "P" CanUseAlias = some (some 0) ∧
      ∀ hh k, reportedNote hh ⟨mh1.objs.set 0 GoMap.empty⟩ N1 "P" k
        = reportedNote hh mh1 N1 "P" k) ∧
    (∃ h1, okHeap.modify (some 0) (setComment "changed") = some h1 ∧
      reportedNote h1 registeredMaps registeredNotes "P" CanUseAlias
        = some (setComment "changed" ⟨true, "ok", ""⟩)) := by
  refine ⟨?_, ?_⟩
  · obtain ⟨mh1, N1, hcall, hmerge, hlater⟩ :=
      (C14_registry_shares_its_objects okHeap callerMaps GoMap.empty "P").2.2.2 0
        (GoMap.lit [(CanUseAlias, some 0)]) rfl (by decide) (by
          intro b hb
          cases hb)
    exact ⟨mh1, N1, hcall, by rw [hmerge CanUseAlias]; rfl, fun hh k => hlater GoMap.empty hh k⟩
  · exact (C14_registry_shares_its_objects okHeap registeredMaps registeredNotes "P").2.2.1
      CanUseAlias (some 0) ⟨true, "ok", ""⟩ (setComment "changed") rfl rfl

/-- C15: the claim, which is the doc comment of the type (line 7, a bitmasked
set of features), asks that every named constant be a non-zero value with a
bit of its own.  The constants as declared with `iota` are not: CanUseAlias is
zero; CanUsePTR and CanUseCAA are distinct constants whose bitwise AND is 1,
not 0; and CanUsePTR OR-ed with CanUseSRV is the constant CanUseCAA, so an OR
of constants does not tell sets apart. -/
theorem C15_constants_are_not_bit_flags :
    CanUseAlias = 0 ∧
      CanUsePTR ≠ CanUseCAA ∧ CanUsePTR &&& CanUseCAA = 1 ∧
      CanUsePTR ≠ CanUseSRV ∧ CanUsePTR ||| CanUseSRV = CanUseCAA := by
  decide

end Providers
